import Mathlib

/-!
Bilinear DEM interpolation (`demInterpolate.c`).

A shallow embedding of the generated C routine `demInterpolate` and of the
record `struct0_T` it reads, followed by the properties stated for it.

The routine is embedded in two readings.

* `DemInterpolate.Binary64.demInterpolate` is the routine as the C code runs
  it: `real_T` is IEEE binary64, every arithmetic operation is rounded to
  nearest (ties to even) on its own, a rounded magnitude of `2 ^ 1024` or more
  becomes an infinity and an invalid operation a NaN.  Neither fused
  multiply-add nor extended precision is assumed.  Finite values are carried
  as rationals; the sign of zero is not modelled (with `resolution > 0` the
  routine never divides by zero); the record holds finite values.
* `DemInterpolate.demInterpolate` is the exact-arithmetic reading: the same
  statements with `real_T` taken as `ℚ`, without rounding, NaN or infinity.
  It carries the properties whose content does not depend on rounding (no
  run-time error, the worked example, independence from the descriptive
  fields) and it says what an exact value would be.

Conventions of both readings.

* `int32_T` is modelled by `Int` with explicit two's-complement wrapping of
  the integer arithmetic, and the conversion `(int32_T)v` of a `real_T`
  truncates toward zero and is an error where the C conversion is undefined.
* The fixed-size arrays `real_T X[10201]` are functions on `Fin 10201`; a read
  of `Z` at an `int32_T` offset outside `[0, 10200]` is an error.
* `emlrtIntegerCheckR2012b` (MATLAB runtime) raises a run-time error; the
  routine therefore returns in `Except`.
-/

namespace DemInterpolate

/-- Record `struct0_T` of `demInterpolate_types.h`. -/
structure struct0_T where
  X : Fin 10201 → ℚ
  Y : Fin 10201 → ℚ
  Z : Fin 10201 → ℚ
  resolution : ℚ
  xMin : ℚ
  xMax : ℚ
  yMin : ℚ
  yMax : ℚ
  type : Fin 5 → Char
  minElevation : ℚ
  maxElevation : ℚ
  meanElevation : ℚ
  stdElevation : ℚ

/-- Ways in which the generated routine can fail at run time. -/
inductive RtError where
  /-- `emlrtIntegerCheckR2012b` was reached with the given value. -/
  | integerCheck (v : ℚ)
  /-- A conversion `(int32_T)v` of a value outside the `int32_T` range. -/
  | castOutOfRange (v : ℚ)
  /-- A read of `Z` at an offset outside `[0, 10200]`. -/
  | indexOutOfBounds (k : Int)
  deriving DecidableEq

/-- Two's-complement wrap of an integer into the `int32_T` range. -/
def wrapInt32 (n : Int) : Int := (n + 2147483648) % 4294967296 - 2147483648

/-- Conversion `(int32_T)v`: truncation toward zero, an error when the
truncated value does not fit `int32_T`. -/
def int32_cast (v : ℚ) : Except RtError Int :=
  let t : Int := if 0 ≤ v then ⌊v⌋ else ⌈v⌉
  if -2147483648 ≤ t ∧ t ≤ 2147483647 then .ok t else .error (.castOutOfRange v)

/-- Function `muDoubleScalarFloor`: rounds toward negative infinity, the
result is again a `real_T`. -/
def muDoubleScalarFloor (v : ℚ) : ℚ := ((⌊v⌋ : Int) : ℚ)

/-- The guarded call `if (v != (int32_T)v) emlrtIntegerCheckR2012b(v, ...)`. -/
def emlrtIntegerCheck (v : ℚ) : Except RtError Unit := do
  let c ← int32_cast v
  if v ≠ (c : ℚ) then .error (.integerCheck v) else .ok ()

/-- Read `demData->Z[k]` for an `int32_T` offset `k`. -/
def readZ (demData : struct0_T) (k : Int) : Except RtError ℚ :=
  if h : 0 ≤ k ∧ k < 10201 then .ok (demData.Z ⟨k.toNat, by omega⟩)
  else .error (.indexOutOfBounds k)

/-- Function `demInterpolate` of `demInterpolate.c` (lines 151-230).  The C
variable `i_float` is reused for the Y weight from line 173 on; it is called
`dy` here. -/
def demInterpolate (demData : struct0_T) (x y : ℚ) : Except RtError ℚ := do
  let i_float := (x - demData.X 0) / demData.resolution
  let j_float := (y - demData.Y 0) / demData.resolution
  let i := muDoubleScalarFloor i_float
  let j := muDoubleScalarFloor j_float
  let i := if i < 0 then 0 else i
  let j := if j < 0 then 0 else j
  let i := if i ≥ 100 then 99 else i
  let j := if j ≥ 100 then 99 else j
  let dx := i_float - i
  let dy := j_float - j
  let dx := if dx < 0 then 0 else dx
  let dx := if dx > 1 then 1 else dx
  let dy := if dy < 0 then 0 else dy
  let dy := if dy > 1 then 1 else dy
  emlrtIntegerCheck (j + 1)
  emlrtIntegerCheck (i + 1)
  emlrtIntegerCheck (j + 1)
  emlrtIntegerCheck (i + 2)
  emlrtIntegerCheck (j + 2)
  emlrtIntegerCheck (i + 1)
  emlrtIntegerCheck (j + 2)
  emlrtIntegerCheck (i + 2)
  let i1 ← int32_cast (i + 1)
  let i2 ← int32_cast (i + 2)
  let j1 ← int32_cast (j + 1)
  let j2 ← int32_cast (j + 2)
  let z_tmp := wrapInt32 (101 * wrapInt32 (i1 - 1))
  let b_z_tmp := wrapInt32 (101 * wrapInt32 (i2 - 1))
  let z11 ← readZ demData (wrapInt32 (wrapInt32 (j1 + z_tmp) - 1))
  let z21 ← readZ demData (wrapInt32 (wrapInt32 (j1 + b_z_tmp) - 1))
  let z12 ← readZ demData (wrapInt32 (wrapInt32 (j2 + z_tmp) - 1))
  let z22 ← readZ demData (wrapInt32 (wrapInt32 (j2 + b_z_tmp) - 1))
  return ((z11 * (1 - dx) * (1 - dy) + z21 * dx * (1 - dy)) + z12 * (1 - dx) * dy)
    + z22 * dx * dy

/-! ## The interpolation as the specification words it -/

/-- Entry `elevations[r, c]`: the buffer `Z` at offset `r + 101 * c` (value `0`
outside the buffer, which no statement below relies on). -/
def elevations (demData : struct0_T) (r c : ℕ) : ℚ :=
  if h : r + 101 * c < 10201 then demData.Z ⟨r + 101 * c, h⟩ else 0

/-- Continuous column coordinate `colF = (x - X[0]) / resolution`. -/
def colF (demData : struct0_T) (x : ℚ) : ℚ := (x - demData.X 0) / demData.resolution

/-- Continuous row coordinate `rowF = (y - Y[0]) / resolution`. -/
def rowF (demData : struct0_T) (y : ℚ) : ℚ := (y - demData.Y 0) / demData.resolution

/-- Base index: `floor f` clamped to `[0, 99]`. -/
def baseIndex (f : ℚ) : ℕ := (max 0 (min 99 ⌊f⌋)).toNat

/-- Weight: `f - base` clamped to `[0, 1]`. -/
def weight (f : ℚ) : ℚ := max 0 (min 1 (f - (baseIndex f : ℚ)))

/-- The bilinear blend of four corner values. -/
def blend (z00 z10 z01 z11 wx wy : ℚ) : ℚ :=
  z00 * (1 - wx) * (1 - wy) + z10 * wx * (1 - wy) + z01 * (1 - wx) * wy + z11 * wx * wy

/-- The value the specification assigns to a query `(x, y)`. -/
def elevationAt (demData : struct0_T) (x y : ℚ) : ℚ :=
  let col0 := baseIndex (colF demData x)
  let row0 := baseIndex (rowF demData y)
  let wx := weight (colF demData x)
  let wy := weight (rowF demData y)
  blend (elevations demData row0 col0) (elevations demData row0 (col0 + 1))
    (elevations demData (row0 + 1) col0) (elevations demData (row0 + 1) (col0 + 1)) wx wy

/-- Lines 154-169 for one axis: `muDoubleScalarFloor` followed by the two
index clamps, as a `real_T`. -/
def clampedFloor (f : ℚ) : ℚ :=
  let i := muDoubleScalarFloor f
  let i := if i < 0 then 0 else i
  if i ≥ 100 then 99 else i

/-- A coordinate clamped to the closed interval `[lo, hi]`. -/
def clampCoord (lo hi v : ℚ) : ℚ := max lo (min hi v)

/-- A grid with the given origin, spacing and elevation buffer; the other
entries of `X` and `Y` and the descriptive fields are filled with the given
value `info` and the tag `tag`. -/
def mkGrid (x0 y0 res : ℚ) (Z : Fin 10201 → ℚ) (info : ℚ) (tag : Char) : struct0_T where
  X := fun k => if k.val = 0 then x0 else info
  Y := fun k => if k.val = 0 then y0 else info
  Z := Z
  resolution := res
  xMin := info
  xMax := info
  yMin := info
  yMax := info
  type := fun _ => tag
  minElevation := info
  maxElevation := info
  meanElevation := info
  stdElevation := info

/-- Sample grid: origin `(0, 0)`, spacing `10`, elevation `100` at node
`(1, 1)` (offset `1 + 101 * 1 = 102`) and `0` elsewhere. -/
def peakGrid : struct0_T := mkGrid 0 0 10 (fun k => if k.val = 102 then 100 else 0) 0 'h'

/-- Sample grid: origin `(500000, 5400000)`, spacing `10`, the elevation at
offset `k` is `k`. -/
def rampGrid : struct0_T := mkGrid 500000 5400000 10 (fun k => (k.val : ℚ)) 0 'h'

/-- Sample grid: the buffer, origin and spacing of `peakGrid` with other
descriptive fields and other entries of `X` and `Y`. -/
def peakGridAlt : struct0_T := mkGrid 0 0 10 (fun k => if k.val = 102 then 100 else 0) 7 'x'

/-- Sample grid: constant elevation `k`, origin `(3, -4)`, spacing `1/2`. -/
def flatGrid (k : ℚ) : struct0_T := mkGrid 3 (-4) (1 / 2) (fun _ => k) 0 'f'

/-! ## The routine on IEEE binary64 -/

namespace Binary64

/-- Type `real_T` (IEEE binary64): a finite value, an infinity or a NaN.
Finite values are carried as rationals; the arithmetic below always produces
representable ones.  The sign of zero is not modelled. -/
inductive real_T where
  | fin (q : ℚ)
  | pinf
  | ninf
  | nan
  deriving DecidableEq

/-- Ways in which the generated routine can fail at run time. -/
inductive RtError where
  /-- `emlrtIntegerCheckR2012b` was reached with the given value. -/
  | integerCheck (v : real_T)
  /-- A conversion `(int32_T)v` whose result C leaves undefined. -/
  | castUndefined (v : real_T)
  /-- A read of `Z` at an offset outside `[0, 10200]`. -/
  | indexOutOfBounds (k : Int)
  deriving DecidableEq

/-- The power `2 ^ e` for an integer exponent. -/
def pow2 (e : ℤ) : ℚ :=
  if 0 ≤ e then ((2 ^ e.toNat : ℕ) : ℚ) else 1 / ((2 ^ (-e).toNat : ℕ) : ℚ)

/-- Binary logarithm of a positive natural number, rounded down, by repeated
halving (`fuel` bounds the number of halvings). -/
def log2Aux : ℕ → ℕ → ℕ
  | 0, _ => 0
  | fuel + 1, n => if n < 2 then 0 else log2Aux fuel (n / 2) + 1

/-- The binary exponent of a non-zero rational: the `e` with
`2 ^ e ≤ |q| < 2 ^ (e + 1)`. -/
def ilog2 (q : ℚ) : ℤ :=
  let k : ℤ := (log2Aux q.num.natAbs q.num.natAbs : ℤ) - (log2Aux q.den q.den : ℤ)
  if pow2 k ≤ |q| then k else k - 1

/-- Rounding to the nearest integer, ties to the even one. -/
def roundHalfEven (t : ℚ) : ℤ :=
  let f := ⌊t⌋
  let d := t - f
  if d < 1 / 2 then f else if 1 / 2 < d then f + 1 else if f % 2 = 0 then f else f + 1

/-- Unit in the last place of binary64 at `q`: 53 significant bits, smallest
normal exponent `-1022` (below it the spacing is `2 ^ (-1074)`). -/
def ulp (q : ℚ) : ℚ := pow2 (max (ilog2 q) (-1022) - 52)

/-- The multiple of `ulp q` nearest to `q`, ties to even. -/
def roundVal (q : ℚ) : ℚ := (roundHalfEven (q / ulp q) : ℚ) * ulp q

/-- Rounding of an exact result to binary64 (round to nearest, ties to even);
a rounded magnitude of `2 ^ 1024` or more overflows to an infinity. -/
def round64 (q : ℚ) : real_T :=
  if q = 0 then .fin 0
  else if pow2 1024 ≤ roundVal q then .pinf
  else if roundVal q ≤ -pow2 1024 then .ninf
  else .fin (roundVal q)

/-- A rational that is a binary64 value. -/
def isBinary64 (q : ℚ) : Prop := round64 q = .fin q

open real_T

/-- Negation. -/
def neg : real_T → real_T
  | fin q => fin (-q)
  | pinf => ninf
  | ninf => pinf
  | nan => nan

/-- Binary64 addition. -/
def add : real_T → real_T → real_T
  | fin p, fin q => round64 (p + q)
  | nan, _ => nan
  | _, nan => nan
  | pinf, ninf => nan
  | ninf, pinf => nan
  | pinf, _ => pinf
  | _, pinf => pinf
  | ninf, _ => ninf
  | _, ninf => ninf

/-- Binary64 subtraction. -/
def sub (a b : real_T) : real_T := add a (neg b)

/-- Binary64 multiplication. -/
def mul : real_T → real_T → real_T
  | fin p, fin q => round64 (p * q)
  | nan, _ => nan
  | _, nan => nan
  | pinf, fin q => if q = 0 then nan else if 0 < q then pinf else ninf
  | ninf, fin q => if q = 0 then nan else if 0 < q then ninf else pinf
  | fin p, pinf => if p = 0 then nan else if 0 < p then pinf else ninf
  | fin p, ninf => if p = 0 then nan else if 0 < p then ninf else pinf
  | pinf, pinf => pinf
  | ninf, ninf => pinf
  | pinf, ninf => ninf
  | ninf, pinf => ninf

/-- Binary64 division (a zero divisor is taken as `+0`). -/
def div : real_T → real_T → real_T
  | fin p, fin q =>
    if q = 0 then (if p = 0 then nan else if 0 < p then pinf else ninf) else round64 (p / q)
  | nan, _ => nan
  | _, nan => nan
  | fin _, pinf => fin 0
  | fin _, ninf => fin 0
  | pinf, fin q => if 0 ≤ q then pinf else ninf
  | ninf, fin q => if 0 ≤ q then ninf else pinf
  | pinf, pinf => nan
  | pinf, ninf => nan
  | ninf, pinf => nan
  | ninf, ninf => nan

/-- Comparison `a < b` (false when either side is a NaN). -/
def lt : real_T → real_T → Bool
  | fin p, fin q => decide (p < q)
  | ninf, fin _ => true
  | ninf, pinf => true
  | fin _, pinf => true
  | _, _ => false

/-- Comparison `a <= b` (false when either side is a NaN). -/
def le : real_T → real_T → Bool
  | fin p, fin q => decide (p ≤ q)
  | nan, _ => false
  | _, nan => false
  | ninf, _ => true
  | _, pinf => true
  | _, _ => false

/-- Function `muDoubleScalarFloor`: rounds toward negative infinity; infinities
and NaN are returned unchanged. -/
def muDoubleScalarFloor : real_T → real_T
  | fin q => fin ((⌊q⌋ : ℤ) : ℚ)
  | v => v

/-- Conversion `(int32_T)v`: truncation toward zero; undefined in C (an error
here) for a NaN, an infinity or a truncated value outside the `int32_T`
range. -/
def int32_cast : real_T → Except RtError Int
  | fin q =>
    let t : Int := if 0 ≤ q then ⌊q⌋ else ⌈q⌉
    if -2147483648 ≤ t ∧ t ≤ 2147483647 then .ok t else .error (.castUndefined (fin q))
  | v => .error (.castUndefined v)

/-- The guarded call `if (v != (int32_T)v) emlrtIntegerCheckR2012b(v, ...)`. -/
def emlrtIntegerCheck (v : real_T) : Except RtError Unit := do
  let c ← int32_cast v
  if v ≠ fin (c : ℚ) then .error (.integerCheck v) else .ok ()

/-- Read `demData->Z[k]` for an `int32_T` offset `k`. -/
def readZ (demData : struct0_T) (k : Int) : Except RtError real_T :=
  if h : 0 ≤ k ∧ k < 10201 then .ok (fin (demData.Z ⟨k.toNat, by omega⟩))
  else .error (.indexOutOfBounds k)

/-- Lines 151-188 of `demInterpolate.c`: the clamped indices `i`, `j` and the
clamped weights `dx`, `dy` (the latter held in the reused variable `i_float`
in the C source), in this order. -/
def gridPosition (demData : struct0_T) (x y : ℚ) : real_T × real_T × real_T × real_T :=
  let i_float := div (sub (fin x) (fin (demData.X 0))) (fin demData.resolution)
  let j_float := div (sub (fin y) (fin (demData.Y 0))) (fin demData.resolution)
  let i := muDoubleScalarFloor i_float
  let j := muDoubleScalarFloor j_float
  let i := if lt i (fin 0) then fin 0 else i
  let j := if lt j (fin 0) then fin 0 else j
  let i := if le (fin 100) i then fin 99 else i
  let j := if le (fin 100) j then fin 99 else j
  let dx := sub i_float i
  let dy := sub j_float j
  let dx := if lt dx (fin 0) then fin 0 else dx
  let dx := if lt (fin 1) dx then fin 1 else dx
  let dy := if lt dy (fin 0) then fin 0 else dy
  let dy := if lt (fin 1) dy then fin 1 else dy
  (i, j, dx, dy)

/-- Function `demInterpolate` of `demInterpolate.c` with binary64 arithmetic:
lines 151-188 (`gridPosition`) followed by lines 191-230.  Every arithmetic
operation is rounded on its own. -/
def demInterpolate (demData : struct0_T) (x y : ℚ) : Except RtError real_T := do
  let (i, j, dx, dy) := gridPosition demData x y
  emlrtIntegerCheck (add j (fin 1))
  emlrtIntegerCheck (add i (fin 1))
  emlrtIntegerCheck (add j (fin 1))
  emlrtIntegerCheck (add i (fin 2))
  emlrtIntegerCheck (add j (fin 2))
  emlrtIntegerCheck (add i (fin 1))
  emlrtIntegerCheck (add j (fin 2))
  emlrtIntegerCheck (add i (fin 2))
  let i1 ← int32_cast (add i (fin 1))
  let i2 ← int32_cast (add i (fin 2))
  let j1 ← int32_cast (add j (fin 1))
  let j2 ← int32_cast (add j (fin 2))
  let z_tmp := wrapInt32 (101 * wrapInt32 (i1 - 1))
  let b_z_tmp := wrapInt32 (101 * wrapInt32 (i2 - 1))
  let z11 ← readZ demData (wrapInt32 (wrapInt32 (j1 + z_tmp) - 1))
  let z21 ← readZ demData (wrapInt32 (wrapInt32 (j1 + b_z_tmp) - 1))
  let z12 ← readZ demData (wrapInt32 (wrapInt32 (j2 + z_tmp) - 1))
  let z22 ← readZ demData (wrapInt32 (wrapInt32 (j2 + b_z_tmp) - 1))
  return add (add (add (mul (mul z11 (sub (fin 1) dx)) (sub (fin 1) dy))
        (mul (mul z21 dx) (sub (fin 1) dy)))
      (mul (mul z12 (sub (fin 1) dx)) dy))
    (mul (mul z22 dx) dy)

/-- Computed column coordinate `colF = fl(fl(x - X[0]) / resolution)`. -/
def colF (demData : struct0_T) (x : ℚ) : real_T :=
  div (sub (fin x) (fin (demData.X 0))) (fin demData.resolution)

/-- Computed row coordinate `rowF = fl(fl(y - Y[0]) / resolution)`. -/
def rowF (demData : struct0_T) (y : ℚ) : real_T :=
  div (sub (fin y) (fin (demData.Y 0))) (fin demData.resolution)

/-- Base index: the floor clamped to `[0, 99]`; `+Inf` clamps to `99` and
`-Inf` to `0` (a NaN has no base index, `0` stands in). -/
def baseIndex : real_T → ℕ
  | fin q => DemInterpolate.baseIndex q
  | pinf => 99
  | ninf => 0
  | nan => 0

/-- Weight: the rounded difference `fl(f - base)` clamped to `[0, 1]`. -/
def weight (f : real_T) : real_T :=
  let d := sub f (fin (baseIndex f : ℚ))
  let d := if lt d (fin 0) then fin 0 else d
  if lt (fin 1) d then fin 1 else d

/-- The bilinear blend with every product, difference and sum rounded, in the
order of the C expression. -/
def blend (z00 z10 z01 z11 wx wy : real_T) : real_T :=
  add (add (add (mul (mul z00 (sub (fin 1) wx)) (sub (fin 1) wy))
        (mul (mul z10 wx) (sub (fin 1) wy)))
      (mul (mul z01 (sub (fin 1) wx)) wy))
    (mul (mul z11 wx) wy)

/-- The value the specification assigns to a query when its arithmetic is
binary64. -/
def elevationAt (demData : struct0_T) (x y : ℚ) : real_T :=
  let col0 := baseIndex (colF demData x)
  let row0 := baseIndex (rowF demData y)
  let wx := weight (colF demData x)
  let wy := weight (rowF demData y)
  blend (fin (elevations demData row0 col0)) (fin (elevations demData row0 (col0 + 1)))
    (fin (elevations demData (row0 + 1) col0)) (fin (elevations demData (row0 + 1) (col0 + 1)))
    wx wy

end Binary64

deriving instance DecidableEq for Except

/-- Sample grid: elevation at offset `k` is `k`, origin `(-22, 0)`, spacing the
binary64 value nearest to `0.7`. -/
def skewGridA : struct0_T :=
  mkGrid (-22) 0 (3152519739159347 / 4503599627370496) (fun k => (k.val : ℚ)) 0 'h'

/-- Sample grid: elevation at offset `k` is `k`, origin `(-33, -33)`, spacing
the binary64 value nearest to `1/3`. -/
def skewGridB : struct0_T :=
  mkGrid (-33) (-33) (6004799503160661 / 18014398509481984) (fun k => (k.val : ℚ)) 0 'h'

theorem baseIndex_le (f : ℚ) : baseIndex f ≤ 99 := by
  unfold baseIndex
  omega

/-- The two index clamps of lines 158-169, applied to the floor, give the
base index. -/
theorem clamp_floor_eq (f : ℚ) :
    (if (if muDoubleScalarFloor f < 0 then 0 else muDoubleScalarFloor f) ≥ 100 then 99
      else (if muDoubleScalarFloor f < 0 then 0 else muDoubleScalarFloor f))
      = (baseIndex f : ℚ) := by
  unfold muDoubleScalarFloor baseIndex
  have key : ((((max 0 (min 99 ⌊f⌋)).toNat : ℕ) : ℤ) : ℚ) = ((max 0 (min 99 ⌊f⌋) : ℤ) : ℚ) := by
    congr 1
    exact Int.toNat_of_nonneg (le_max_left _ _)
  rw [← Int.cast_natCast, key]
  by_cases h0 : ⌊f⌋ < 0
  · have h0q : ((⌊f⌋ : ℤ) : ℚ) < 0 := by exact_mod_cast h0
    have : max 0 (min 99 ⌊f⌋) = 0 := by omega
    rw [this]
    simp [h0q]
  · have h0q : ¬ ((⌊f⌋ : ℤ) : ℚ) < 0 := by
      intro h
      exact h0 (by exact_mod_cast h)
    by_cases h1 : (100 : ℤ) ≤ ⌊f⌋
    · have h1q : ((⌊f⌋ : ℤ) : ℚ) ≥ 100 := by exact_mod_cast h1
      have : max 0 (min 99 ⌊f⌋) = 99 := by omega
      rw [this]
      simp [h0q, h1q]
    · have h1q : ¬ ((⌊f⌋ : ℤ) : ℚ) ≥ 100 := by
        intro h
        exact h1 (by exact_mod_cast h)
      have : max 0 (min 99 ⌊f⌋) = ⌊f⌋ := by omega
      rw [this]
      simp [h0q, h1q]

/-- The two weight clamps of lines 177-188 are the clamp to `[0, 1]`. -/
theorem clamp_weight_eq (w : ℚ) :
    (if (if w < 0 then 0 else w) > 1 then 1 else (if w < 0 then 0 else w))
      = max 0 (min 1 w) := by
  by_cases h0 : w < 0
  · have : min 1 w = w := min_eq_right (by linarith)
    rw [this, max_eq_left (le_of_lt h0)]
    simp [h0]
  · push_neg at h0
    rw [max_eq_right (le_min (by norm_num) h0)]
    by_cases h1 : w > 1
    · rw [min_eq_left (le_of_lt h1)]
      simp [not_lt.mpr h0, h1]
    · rw [min_eq_right (not_lt.mp h1)]
      simp [not_lt.mpr h0, h1]

theorem int32_cast_intCast (m : ℤ) (h₁ : -2147483648 ≤ m) (h₂ : m ≤ 2147483647) :
    int32_cast (m : ℚ) = .ok m := by
  unfold int32_cast
  simp only [Int.floor_intCast, Int.ceil_intCast, ite_self]
  rw [if_pos ⟨h₁, h₂⟩]

theorem emlrtIntegerCheck_intCast (m : ℤ) (h₁ : -2147483648 ≤ m) (h₂ : m ≤ 2147483647) :
    emlrtIntegerCheck (m : ℚ) = .ok () := by
  unfold emlrtIntegerCheck
  rw [int32_cast_intCast m h₁ h₂]
  simp [bind, Except.bind]

theorem readZ_eq (demData : struct0_T) (r c : ℕ) (hr : r ≤ 100) (hc : c ≤ 100) :
    readZ demData ((r : ℤ) + 101 * (c : ℤ)) = .ok (elevations demData r c) := by
  unfold readZ elevations
  have h : (0 : ℤ) ≤ (r : ℤ) + 101 * (c : ℤ) ∧ (r : ℤ) + 101 * (c : ℤ) < 10201 := by omega
  have h' : r + 101 * c < 10201 := by omega
  rw [dif_pos h, dif_pos h']
  congr 2

theorem int32_cast_natCast_add (n k : ℕ) (h : n + k ≤ 2147483647) :
    int32_cast ((n : ℚ) + (k : ℚ)) = .ok ((n : ℤ) + (k : ℤ)) := by
  have e := int32_cast_intCast ((n : ℤ) + (k : ℤ)) (by omega) (by omega)
  push_cast at e
  exact e

theorem emlrtIntegerCheck_natCast_add (n k : ℕ) (h : n + k ≤ 2147483647) :
    emlrtIntegerCheck ((n : ℚ) + (k : ℚ)) = .ok () := by
  have e := emlrtIntegerCheck_intCast ((n : ℤ) + (k : ℤ)) (by omega) (by omega)
  push_cast at e
  exact e

/-- The routine never fails and computes the bilinear blend of the
specification. -/
theorem demInterpolate_eq (demData : struct0_T) (x y : ℚ) :
    demInterpolate demData x y = .ok (elevationAt demData x y) := by
  unfold demInterpolate elevationAt colF rowF weight blend
  simp only [clamp_floor_eq, clamp_weight_eq]
  have hn := baseIndex_le ((x - demData.X 0) / demData.resolution)
  have hm := baseIndex_le ((y - demData.Y 0) / demData.resolution)
  generalize baseIndex ((x - demData.X 0) / demData.resolution) = n at hn ⊢
  generalize baseIndex ((y - demData.Y 0) / demData.resolution) = m at hm ⊢
  have cn1 := emlrtIntegerCheck_natCast_add n 1 (by omega)
  have cn2 := emlrtIntegerCheck_natCast_add n 2 (by omega)
  have cm1 := emlrtIntegerCheck_natCast_add m 1 (by omega)
  have cm2 := emlrtIntegerCheck_natCast_add m 2 (by omega)
  have kn1 := int32_cast_natCast_add n 1 (by omega)
  have kn2 := int32_cast_natCast_add n 2 (by omega)
  have km1 := int32_cast_natCast_add m 1 (by omega)
  have km2 := int32_cast_natCast_add m 2 (by omega)
  have o11 : wrapInt32 (wrapInt32 (((m : ℤ) + 1) + wrapInt32 (101 * wrapInt32 (((n : ℤ) + 1) - 1)))
      - 1) = (m : ℤ) + 101 * (n : ℤ) := by
    unfold wrapInt32
    omega
  have o21 : wrapInt32 (wrapInt32 (((m : ℤ) + 1) + wrapInt32 (101 * wrapInt32 (((n : ℤ) + 2) - 1)))
      - 1) = (m : ℤ) + 101 * ((n : ℤ) + 1) := by
    unfold wrapInt32
    omega
  have o12 : wrapInt32 (wrapInt32 (((m : ℤ) + 2) + wrapInt32 (101 * wrapInt32 (((n : ℤ) + 1) - 1)))
      - 1) = ((m : ℤ) + 1) + 101 * (n : ℤ) := by
    unfold wrapInt32
    omega
  have o22 : wrapInt32 (wrapInt32 (((m : ℤ) + 2) + wrapInt32 (101 * wrapInt32 (((n : ℤ) + 2) - 1)))
      - 1) = ((m : ℤ) + 1) + 101 * ((n : ℤ) + 1) := by
    unfold wrapInt32
    omega
  have r11 := readZ_eq demData m n (by omega) (by omega)
  have r21 := readZ_eq demData m (n + 1) (by omega) (by omega)
  have r12 := readZ_eq demData (m + 1) n (by omega) (by omega)
  have r22 := readZ_eq demData (m + 1) (n + 1) (by omega) (by omega)
  push_cast at cn1 cn2 cm1 cm2 kn1 kn2 km1 km2 r11 r21 r12 r22
  simp only [cn1, cn2, cm1, cm2, kn1, kn2, km1, km2, bind, Except.bind, o11, o21, o12, o22,
    r11, r21, r12, r22, pure, Except.pure]

theorem clampedFloor_eq (f : ℚ) : clampedFloor f = (baseIndex f : ℚ) := by
  unfold clampedFloor
  exact clamp_floor_eq f

theorem baseIndex_of_mem (f : ℚ) (n : ℕ) (hn : n ≤ 99) (h₁ : (n : ℚ) ≤ f) (h₂ : f < (n : ℚ) + 1) :
    baseIndex f = n := by
  have hf : ⌊f⌋ = (n : ℤ) := by
    rw [Int.floor_eq_iff]
    push_cast
    exact ⟨h₁, h₂⟩
  unfold baseIndex
  rw [hf]
  omega

theorem baseIndex_of_nonpos (f : ℚ) (h : f ≤ 0) : baseIndex f = 0 := by
  have hf : ⌊f⌋ ≤ 0 := Int.floor_nonpos h
  unfold baseIndex
  omega

theorem baseIndex_of_ge (f : ℚ) (h : 100 ≤ f) : baseIndex f = 99 := by
  have hf : (100 : ℤ) ≤ ⌊f⌋ := by
    rw [Int.le_floor]
    exact_mod_cast h
  unfold baseIndex
  omega

theorem weight_of_mem (f : ℚ) (n : ℕ) (hn : n ≤ 99) (h₁ : (n : ℚ) ≤ f) (h₂ : f < (n : ℚ) + 1) :
    weight f = f - n := by
  unfold weight
  rw [baseIndex_of_mem f n hn h₁ h₂, min_eq_right (by linarith), max_eq_right (by linarith)]

theorem weight_of_nonpos (f : ℚ) (h : f ≤ 0) : weight f = 0 := by
  unfold weight
  rw [baseIndex_of_nonpos f h]
  have : min 1 (f - ((0 : ℕ) : ℚ)) ≤ 0 := by
    push_cast
    exact le_trans (min_le_right _ _) (by linarith)
  exact max_eq_left this

/-- A blend with weights in `[0, 1]` is bounded by any common bounds of the
four corners. -/
theorem blend_mem (z00 z10 z01 z11 wx wy lo hi : ℚ) (hx₀ : 0 ≤ wx) (hx₁ : wx ≤ 1)
    (hy₀ : 0 ≤ wy) (hy₁ : wy ≤ 1)
    (l00 : lo ≤ z00) (l10 : lo ≤ z10) (l01 : lo ≤ z01) (l11 : lo ≤ z11)
    (u00 : z00 ≤ hi) (u10 : z10 ≤ hi) (u01 : z01 ≤ hi) (u11 : z11 ≤ hi) :
    lo ≤ blend z00 z10 z01 z11 wx wy ∧ blend z00 z10 z01 z11 wx wy ≤ hi := by
  have a00 : 0 ≤ (1 - wx) * (1 - wy) := mul_nonneg (by linarith) (by linarith)
  have a10 : 0 ≤ wx * (1 - wy) := mul_nonneg hx₀ (by linarith)
  have a01 : 0 ≤ (1 - wx) * wy := mul_nonneg (by linarith) hy₀
  have a11 : 0 ≤ wx * wy := mul_nonneg hx₀ hy₀
  unfold blend
  constructor
  · have e : z00 * (1 - wx) * (1 - wy) + z10 * wx * (1 - wy) + z01 * (1 - wx) * wy
        + z11 * wx * wy - lo
        = (1 - wx) * (1 - wy) * (z00 - lo) + wx * (1 - wy) * (z10 - lo)
          + (1 - wx) * wy * (z01 - lo) + wx * wy * (z11 - lo) := by ring
    have p00 := mul_nonneg a00 (sub_nonneg.mpr l00)
    have p10 := mul_nonneg a10 (sub_nonneg.mpr l10)
    have p01 := mul_nonneg a01 (sub_nonneg.mpr l01)
    have p11 := mul_nonneg a11 (sub_nonneg.mpr l11)
    linarith
  · have e : hi - (z00 * (1 - wx) * (1 - wy) + z10 * wx * (1 - wy) + z01 * (1 - wx) * wy
        + z11 * wx * wy)
        = (1 - wx) * (1 - wy) * (hi - z00) + wx * (1 - wy) * (hi - z10)
          + (1 - wx) * wy * (hi - z01) + wx * wy * (hi - z11) := by ring
    have p00 := mul_nonneg a00 (sub_nonneg.mpr u00)
    have p10 := mul_nonneg a10 (sub_nonneg.mpr u10)
    have p01 := mul_nonneg a01 (sub_nonneg.mpr u01)
    have p11 := mul_nonneg a11 (sub_nonneg.mpr u11)
    linarith

theorem rampGrid_resolution : (0 : ℚ) < rampGrid.resolution := by
  show (0 : ℚ) < 10
  norm_num

/-- The specification value when both continuous coordinates have known
base indices and weights. -/
theorem elevationAt_of (demData : struct0_T) (x y : ℚ) (c r : ℕ) (wx wy : ℚ)
    (hc : baseIndex (colF demData x) = c) (hr : baseIndex (rowF demData y) = r)
    (hwx : weight (colF demData x) = wx) (hwy : weight (rowF demData y) = wy) :
    elevationAt demData x y =
      blend (elevations demData r c) (elevations demData r (c + 1))
        (elevations demData (r + 1) c) (elevations demData (r + 1) (c + 1)) wx wy := by
  unfold elevationAt
  simp only [hc, hr, hwx, hwy]

theorem elevations_const (demData : struct0_T) (k : ℚ) (h : ∀ idx, demData.Z idx = k)
    (r c : ℕ) (hr : r ≤ 100) (hc : c ≤ 100) : elevations demData r c = k := by
  unfold elevations
  rw [dif_pos (by omega), h]

theorem flatGrid_resolution (k : ℚ) : (0 : ℚ) < (flatGrid k).resolution := by
  show (0 : ℚ) < 1 / 2
  norm_num

/-! ## Helper lemmas: the binary64 reading -/

namespace Binary64
open real_T

theorem pow2_eq (e : ℤ) : pow2 e = (2 : ℚ) ^ e := by
  unfold pow2
  split_ifs with h
  · have : ((2 : ℚ) ^ e) = (2 : ℚ) ^ ((e.toNat : ℕ) : ℤ) := by rw [Int.toNat_of_nonneg h]
    rw [this, zpow_natCast]
    push_cast
    rfl
  · have hneg : 0 ≤ -e := by omega
    have : ((2 : ℚ) ^ e) = ((2 : ℚ) ^ (((-e).toNat : ℕ) : ℤ))⁻¹ := by
      rw [Int.toNat_of_nonneg hneg, zpow_neg, inv_inv]
    rw [this, zpow_natCast]
    push_cast
    rw [one_div]

theorem pow2_pos (e : ℤ) : 0 < pow2 e := by
  rw [pow2_eq]
  positivity

theorem pow2_add (a b : ℤ) : pow2 (a + b) = pow2 a * pow2 b := by
  simp only [pow2_eq]
  rw [zpow_add₀ (by norm_num)]

theorem pow2_le_pow2 {a b : ℤ} (h : a ≤ b) : pow2 a ≤ pow2 b := by
  simp only [pow2_eq]
  exact zpow_le_zpow_right₀ (by norm_num) h

theorem pow2_lt_pow2 {a b : ℤ} (h : a < b) : pow2 a < pow2 b := by
  simp only [pow2_eq]
  exact zpow_lt_zpow_right₀ (by norm_num) h

theorem log2Aux_spec (fuel n : ℕ) (h₁ : 1 ≤ n) (h₂ : n ≤ fuel) :
    2 ^ log2Aux fuel n ≤ n ∧ n < 2 ^ (log2Aux fuel n + 1) := by
  induction fuel generalizing n with
  | zero => omega
  | succ fuel ih =>
    unfold log2Aux
    split_ifs with h
    · have : n = 1 := by omega
      subst this
      norm_num
    · have hn : 1 ≤ n / 2 := by omega
      have hf : n / 2 ≤ fuel := by omega
      obtain ⟨a, b⟩ := ih (n / 2) hn hf
      constructor
      · rw [pow_succ]
        omega
      · rw [pow_succ]
        omega

theorem pow2_natCast_sub (a b : ℕ) (c : ℤ) :
    pow2 ((a : ℤ) - (b : ℤ) + c) = (2 : ℚ) ^ a / (2 : ℚ) ^ b * pow2 c := by
  simp only [pow2_eq]
  rw [zpow_add₀ (by norm_num), zpow_sub₀ (by norm_num), zpow_natCast, zpow_natCast]

theorem abs_eq_natAbs_div_den (q : ℚ) : |q| = (q.num.natAbs : ℚ) / (q.den : ℚ) := by
  have h := Rat.num_div_den q
  have hd : (0 : ℚ) < (q.den : ℚ) := by exact_mod_cast q.den_pos
  conv_lhs => rw [← h]
  rw [abs_div, abs_of_pos hd, Nat.cast_natAbs, Int.cast_abs]

theorem ilog2_spec (q : ℚ) (hq : q ≠ 0) :
    pow2 (ilog2 q) ≤ |q| ∧ |q| < pow2 (ilog2 q + 1) := by
  unfold ilog2
  simp only
  have hn : 1 ≤ q.num.natAbs := by
    have : q.num ≠ 0 := Rat.num_ne_zero.mpr hq
    omega
  have hd : 1 ≤ q.den := q.den_pos
  obtain ⟨n₁, n₂⟩ := log2Aux_spec q.num.natAbs q.num.natAbs hn le_rfl
  obtain ⟨d₁, d₂⟩ := log2Aux_spec q.den q.den hd le_rfl
  have n₁q : (2 : ℚ) ^ log2Aux q.num.natAbs q.num.natAbs ≤ (q.num.natAbs : ℚ) := by
    exact_mod_cast n₁
  have n₂q : (q.num.natAbs : ℚ) < (2 : ℚ) ^ (log2Aux q.num.natAbs q.num.natAbs + 1) := by
    exact_mod_cast n₂
  have d₁q : (2 : ℚ) ^ log2Aux q.den q.den ≤ (q.den : ℚ) := by exact_mod_cast d₁
  have d₂q : (q.den : ℚ) < (2 : ℚ) ^ (log2Aux q.den q.den + 1) := by exact_mod_cast d₂
  have hdq : (0 : ℚ) < (q.den : ℚ) := by exact_mod_cast q.den_pos
  have habs := abs_eq_natAbs_div_den q
  generalize log2Aux q.num.natAbs q.num.natAbs = a at *
  generalize log2Aux q.den q.den = b at *
  have hpa : (0 : ℚ) < (2 : ℚ) ^ a := by positivity
  have hpb : (0 : ℚ) < (2 : ℚ) ^ b := by positivity
  have hup : |q| < pow2 ((a : ℤ) - (b : ℤ) + 1) := by
    rw [pow2_natCast_sub, habs, pow2_eq, zpow_one, div_mul_eq_mul_div, div_lt_div_iff₀ hdq hpb]
    rw [pow_succ] at n₂q
    calc (q.num.natAbs : ℚ) * 2 ^ b ≤ (q.num.natAbs : ℚ) * (q.den : ℚ) :=
          mul_le_mul_of_nonneg_left d₁q (by positivity)
      _ < 2 ^ a * 2 * (q.den : ℚ) := mul_lt_mul_of_pos_right n₂q hdq
  have hlo : pow2 ((a : ℤ) - (b : ℤ) + (-1)) < |q| := by
    rw [pow2_natCast_sub, habs, pow2_eq, div_mul_eq_mul_div, div_lt_div_iff₀ hpb hdq]
    rw [pow_succ] at d₂q
    have h2 : (2 : ℚ) ^ (-1 : ℤ) = 1 / 2 := by norm_num
    rw [h2]
    calc (2 : ℚ) ^ a * (1 / 2) * (q.den : ℚ) < (2 : ℚ) ^ a * (1 / 2) * (2 ^ b * 2) :=
          mul_lt_mul_of_pos_left d₂q (by positivity)
      _ = 2 ^ a * 2 ^ b := by ring
      _ ≤ (q.num.natAbs : ℚ) * 2 ^ b := mul_le_mul_of_nonneg_right n₁q (le_of_lt hpb)
  split_ifs with h
  · exact ⟨h, hup⟩
  · constructor
    · have : (a : ℤ) - (b : ℤ) - 1 = (a : ℤ) - (b : ℤ) + (-1) := by ring
      rw [this]
      exact le_of_lt hlo
    · have : (a : ℤ) - (b : ℤ) - 1 + 1 = (a : ℤ) - (b : ℤ) := by ring
      rw [this]
      exact not_le.mp h

/-- The exponent is characterised by its bracket. -/
theorem ilog2_unique (q : ℚ) (e : ℤ) (h₁ : pow2 e ≤ |q|) (h₂ : |q| < pow2 (e + 1)) :
    ilog2 q = e := by
  have hq : q ≠ 0 := by
    intro h
    rw [h, abs_zero] at h₁
    exact absurd h₁ (not_le.mpr (pow2_pos e))
  obtain ⟨a, b⟩ := ilog2_spec q hq
  by_contra hne
  rcases lt_or_gt_of_ne hne with hlt | hgt
  · have : pow2 (ilog2 q + 1) ≤ pow2 e := pow2_le_pow2 (by omega)
    linarith
  · have : pow2 (e + 1) ≤ pow2 (ilog2 q) := pow2_le_pow2 (by omega)
    linarith

theorem roundHalfEven_cases (t : ℚ) : roundHalfEven t = ⌊t⌋ ∨ roundHalfEven t = ⌊t⌋ + 1 := by
  unfold roundHalfEven
  simp only
  split_ifs <;> simp

theorem roundHalfEven_abs (t : ℚ) : |(roundHalfEven t : ℚ) - t| ≤ 1 / 2 := by
  have h₁ := Int.floor_le t
  have h₂ := Int.lt_floor_add_one t
  unfold roundHalfEven
  simp only
  rw [abs_le]
  split_ifs with a b c
  · constructor <;> linarith
  · push_cast
    constructor <;> linarith
  · constructor <;> linarith
  · push_cast
    constructor <;> linarith

theorem roundHalfEven_intCast (z : ℤ) : roundHalfEven (z : ℚ) = z := by
  unfold roundHalfEven
  simp

theorem le_roundHalfEven (t : ℚ) (z : ℤ) (h : (z : ℚ) ≤ t) : z ≤ roundHalfEven t := by
  have hf : z ≤ ⌊t⌋ := Int.le_floor.mpr h
  rcases roundHalfEven_cases t with e | e <;> omega

theorem roundHalfEven_le (t : ℚ) (z : ℤ) (h : t ≤ (z : ℚ)) : roundHalfEven t ≤ z := by
  rcases eq_or_lt_of_le h with e | hlt
  · rw [e, roundHalfEven_intCast]
  · have hf : ⌊t⌋ < z := Int.floor_lt.mpr hlt
    rcases roundHalfEven_cases t with e | e <;> omega

theorem ulp_pos (q : ℚ) : 0 < ulp q := pow2_pos _

theorem roundVal_zero : roundVal 0 = 0 := by
  unfold roundVal
  rw [zero_div]
  have := roundHalfEven_intCast 0
  simp only [Int.cast_zero] at this
  rw [this]
  simp

theorem roundVal_abs_sub (q : ℚ) : |roundVal q - q| ≤ ulp q / 2 := by
  have hu := ulp_pos q
  have h := roundHalfEven_abs (q / ulp q)
  unfold roundVal
  have e : (roundHalfEven (q / ulp q) : ℚ) * ulp q - q
      = ((roundHalfEven (q / ulp q) : ℚ) - q / ulp q) * ulp q := by
    field_simp
  rw [e, abs_mul, abs_of_pos hu]
  calc |(roundHalfEven (q / ulp q) : ℚ) - q / ulp q| * ulp q ≤ 1 / 2 * ulp q :=
        mul_le_mul_of_nonneg_right h (le_of_lt hu)
    _ = ulp q / 2 := by ring

theorem roundVal_nonneg (q : ℚ) (h : 0 ≤ q) : 0 ≤ roundVal q := by
  have hu := ulp_pos q
  have : (0 : ℤ) ≤ roundHalfEven (q / ulp q) :=
    le_roundHalfEven _ 0 (by simpa using div_nonneg h (le_of_lt hu))
  unfold roundVal
  exact mul_nonneg (by exact_mod_cast this) (le_of_lt hu)

theorem roundVal_nonpos (q : ℚ) (h : q ≤ 0) : roundVal q ≤ 0 := by
  have hu := ulp_pos q
  have : roundHalfEven (q / ulp q) ≤ (0 : ℤ) :=
    roundHalfEven_le _ 0 (by simpa using div_nonpos_of_nonpos_of_nonneg h (le_of_lt hu))
  unfold roundVal
  exact mul_nonpos_of_nonpos_of_nonneg (by exact_mod_cast this) (le_of_lt hu)

/-- A value that is an integer multiple of its own unit in the last place is
left unchanged by rounding. -/
theorem roundVal_of_int_mul (q : ℚ) (z : ℤ) (h : q = (z : ℚ) * ulp q) : roundVal q = q := by
  have hu := ulp_pos q
  have e : q / ulp q = (z : ℚ) := by
    rw [div_eq_iff (ne_of_gt hu)]
    exact h
  unfold roundVal
  rw [e, roundHalfEven_intCast]
  exact h.symm

theorem ulp_of_normal (q : ℚ) (h : pow2 (-1022) ≤ |q|) : ulp q = pow2 (ilog2 q - 52) := by
  have hq : q ≠ 0 := by
    intro e
    rw [e, abs_zero] at h
    exact absurd h (not_le.mpr (pow2_pos _))
  obtain ⟨_, b⟩ := ilog2_spec q hq
  have : -1022 ≤ ilog2 q := by
    by_contra hc
    have : pow2 (ilog2 q + 1) ≤ pow2 (-1022) := pow2_le_pow2 (by omega)
    linarith
  unfold ulp
  rw [max_eq_left this]

theorem ulp_of_subnormal (q : ℚ) (hq : q ≠ 0) (h : |q| < pow2 (-1022)) :
    ulp q = pow2 (-1074) := by
  have : ilog2 q ≤ -1022 := by
    obtain ⟨a, _⟩ := ilog2_spec q hq
    by_contra hc
    have : pow2 (-1022) ≤ pow2 (ilog2 q) := pow2_le_pow2 (by omega)
    linarith
  unfold ulp
  rw [max_eq_right this]
  rfl

/-- In the normal range the rounded value stays in the binade closure of the
argument. -/
theorem roundVal_normal (q : ℚ) (h : pow2 (-1022) ≤ |q|) :
    pow2 (ilog2 q) ≤ |roundVal q| ∧ |roundVal q| ≤ pow2 (ilog2 q + 1) := by
  have hq : q ≠ 0 := by
    intro e
    rw [e, abs_zero] at h
    exact absurd h (not_le.mpr (pow2_pos _))
  obtain ⟨a, b⟩ := ilog2_spec q hq
  have hu := ulp_pos q
  have hue := ulp_of_normal q h
  have e₁ : pow2 (ilog2 q) = (((2 : ℤ) ^ 52 : ℤ) : ℚ) * ulp q := by
    rw [hue]
    have : pow2 52 = (((2 : ℤ) ^ 52 : ℤ) : ℚ) := by
      rw [pow2_eq]
      norm_num
    rw [← this, ← pow2_add]
    congr 1
    ring
  have e₂ : pow2 (ilog2 q + 1) = (((2 : ℤ) ^ 53 : ℤ) : ℚ) * ulp q := by
    rw [hue]
    have : pow2 53 = (((2 : ℤ) ^ 53 : ℤ) : ℚ) := by
      rw [pow2_eq]
      norm_num
    rw [← this, ← pow2_add]
    congr 1
    ring
  rw [e₁] at a ⊢
  rw [e₂] at b ⊢
  unfold roundVal
  rw [abs_mul, abs_of_pos hu]
  rcases le_total 0 q with hpos | hneg
  · rw [abs_of_nonneg hpos] at a b
    have l : ((2 : ℤ) ^ 52 : ℤ) ≤ roundHalfEven (q / ulp q) :=
      le_roundHalfEven _ _ (by rw [le_div_iff₀ hu]; exact a)
    have r : roundHalfEven (q / ulp q) ≤ ((2 : ℤ) ^ 53 : ℤ) :=
      roundHalfEven_le _ _ (by rw [div_le_iff₀ hu]; exact le_of_lt b)
    have l' : (((2 : ℤ) ^ 52 : ℤ) : ℚ) ≤ (roundHalfEven (q / ulp q) : ℚ) := by exact_mod_cast l
    have r' : (roundHalfEven (q / ulp q) : ℚ) ≤ (((2 : ℤ) ^ 53 : ℤ) : ℚ) := by exact_mod_cast r
    have nn : (0 : ℚ) ≤ (roundHalfEven (q / ulp q) : ℚ) := le_trans (by positivity) l'
    rw [abs_of_nonneg nn]
    exact ⟨mul_le_mul_of_nonneg_right l' (le_of_lt hu),
      mul_le_mul_of_nonneg_right r' (le_of_lt hu)⟩
  · rw [abs_of_nonpos hneg] at a b
    have l : roundHalfEven (q / ulp q) ≤ -((2 : ℤ) ^ 52 : ℤ) :=
      roundHalfEven_le _ _ (by rw [div_le_iff₀ hu]; push_cast at a ⊢; linarith)
    have r : -((2 : ℤ) ^ 53 : ℤ) ≤ roundHalfEven (q / ulp q) :=
      le_roundHalfEven _ _ (by rw [le_div_iff₀ hu]; push_cast at b ⊢; linarith)
    have l' : (roundHalfEven (q / ulp q) : ℚ) ≤ -(((2 : ℤ) ^ 52 : ℤ) : ℚ) := by exact_mod_cast l
    have r' : -(((2 : ℤ) ^ 53 : ℤ) : ℚ) ≤ (roundHalfEven (q / ulp q) : ℚ) := by exact_mod_cast r
    have np : (roundHalfEven (q / ulp q) : ℚ) ≤ 0 := le_trans l' (by norm_num)
    rw [abs_of_nonpos np]
    exact ⟨mul_le_mul_of_nonneg_right (by linarith) (le_of_lt hu),
      mul_le_mul_of_nonneg_right (by linarith) (le_of_lt hu)⟩

theorem pow2_split (e : ℤ) (k : ℕ) : pow2 e = (((2 : ℤ) ^ k : ℤ) : ℚ) * pow2 (e - k) := by
  have : (((2 : ℤ) ^ k : ℤ) : ℚ) = pow2 k := by
    rw [pow2_eq, zpow_natCast]
    push_cast
    rfl
  rw [this, ← pow2_add]
  congr 1
  ring

theorem roundVal_subnormal (q : ℚ) (hq : q ≠ 0) (h : |q| < pow2 (-1022)) :
    |roundVal q| ≤ pow2 (-1022) := by
  have hu := ulp_pos q
  have hue := ulp_of_subnormal q hq h
  have e₁ : pow2 (-1022) = (((2 : ℤ) ^ 52 : ℤ) : ℚ) * ulp q := by
    rw [hue]
    exact pow2_split (-1022) 52
  rw [e₁] at h ⊢
  obtain ⟨h₁, h₂⟩ := abs_lt.mp h
  have l : -((2 : ℤ) ^ 52 : ℤ) ≤ roundHalfEven (q / ulp q) :=
    le_roundHalfEven _ _ (by rw [le_div_iff₀ hu]; push_cast at h₁ ⊢; linarith)
  have r : roundHalfEven (q / ulp q) ≤ ((2 : ℤ) ^ 52 : ℤ) :=
    roundHalfEven_le _ _ (by rw [div_le_iff₀ hu]; exact le_of_lt h₂)
  have l' : -(((2 : ℤ) ^ 52 : ℤ) : ℚ) ≤ (roundHalfEven (q / ulp q) : ℚ) := by exact_mod_cast l
  have r' : (roundHalfEven (q / ulp q) : ℚ) ≤ (((2 : ℤ) ^ 52 : ℤ) : ℚ) := by exact_mod_cast r
  unfold roundVal
  rw [abs_mul, abs_of_pos hu]
  exact mul_le_mul_of_nonneg_right (abs_le.mpr ⟨l', r'⟩) (le_of_lt hu)

/-- Rounding is idempotent: a rounded value is a fixed point of rounding. -/
theorem roundVal_idem (q : ℚ) : roundVal (roundVal q) = roundVal q := by
  by_cases hq : q = 0
  · rw [hq, roundVal_zero, roundVal_zero]
  by_cases hr : roundVal q = 0
  · rw [hr, roundVal_zero]
  have hrdef : roundVal q = (roundHalfEven (q / ulp q) : ℚ) * ulp q := rfl
  rcases le_or_lt (pow2 (-1022)) |q| with hn | hs
  · obtain ⟨lo, hi⟩ := roundVal_normal q hn
    have hue := ulp_of_normal q hn
    have hrn : pow2 (-1022) ≤ |roundVal q| := by
      obtain ⟨a, b⟩ := ilog2_spec q hq
      have : -1022 ≤ ilog2 q := by
        by_contra hc
        have : pow2 (ilog2 q + 1) ≤ pow2 (-1022) := pow2_le_pow2 (by omega)
        linarith
      exact le_trans (pow2_le_pow2 this) lo
    rcases lt_or_eq_of_le hi with hlt | heq
    · have hl : ilog2 (roundVal q) = ilog2 q := ilog2_unique _ _ lo hlt
      have hur : ulp (roundVal q) = ulp q := by
        rw [ulp_of_normal _ hrn, hl, hue]
      apply roundVal_of_int_mul _ (roundHalfEven (q / ulp q))
      rw [hur]
      exact hrdef
    · have hl : ilog2 (roundVal q) = ilog2 q + 1 :=
        ilog2_unique _ _ (le_of_eq heq.symm) (by rw [heq]; exact pow2_lt_pow2 (by omega))
      have hur : ulp (roundVal q) = pow2 (ilog2 q + 1 - 52) := by
        rw [ulp_of_normal _ hrn, hl]
      have hsplit : pow2 (ilog2 q + 1) = (((2 : ℤ) ^ 52 : ℤ) : ℚ) * pow2 (ilog2 q + 1 - 52) := by
        have := pow2_split (ilog2 q + 1) 52
        exact_mod_cast this
      rcases le_total 0 (roundVal q) with hp | hm
      · apply roundVal_of_int_mul _ ((2 : ℤ) ^ 52)
        rw [hur, ← hsplit, ← heq, abs_of_nonneg hp]
      · apply roundVal_of_int_mul _ (-(2 : ℤ) ^ 52)
        rw [hur]
        have : roundVal q = -|roundVal q| := by rw [abs_of_nonpos hm]; ring
        rw [this, heq, hsplit]
        push_cast
        ring
  · have hb := roundVal_subnormal q hq hs
    have hue := ulp_of_subnormal q hq hs
    have hl : ilog2 (roundVal q) ≤ -1022 := by
      obtain ⟨a, _⟩ := ilog2_spec _ hr
      by_contra hc
      have : pow2 (-1022) < pow2 (ilog2 (roundVal q)) := pow2_lt_pow2 (by omega)
      linarith
    have hur : ulp (roundVal q) = ulp q := by
      rw [hue]
      unfold ulp
      rw [max_eq_right hl]
      rfl
    apply roundVal_of_int_mul _ (roundHalfEven (q / ulp q))
    rw [hur]
    exact hrdef

theorem round64_zero : round64 0 = fin 0 := by
  unfold round64
  rw [if_pos rfl]

theorem round64_cases (q : ℚ) :
    round64 q = pinf ∨ round64 q = ninf ∨ round64 q = fin (roundVal q) := by
  unfold round64
  split_ifs with h
  · right
    right
    rw [h, roundVal_zero]
  · left
    rfl
  · right
    left
    rfl
  · right
    right
    rfl

theorem round64_ne_nan (q : ℚ) : round64 q ≠ nan := by
  rcases round64_cases q with h | h | h <;> rw [h] <;> simp

theorem round64_of_abs_lt (q : ℚ) (h : |roundVal q| < pow2 1024) :
    round64 q = fin (roundVal q) := by
  obtain ⟨h₁, h₂⟩ := abs_lt.mp h
  unfold round64
  split_ifs with a b c
  · rw [a, roundVal_zero]
  · linarith
  · linarith
  · rfl

theorem round64_eq_fin (q r : ℚ) (h : round64 q = fin r) :
    r = roundVal q ∧ |r| < pow2 1024 := by
  unfold round64 at h
  have hp := pow2_pos 1024
  split_ifs at h with a b c
  · have e : r = 0 := (real_T.fin.inj h).symm
    rw [e, a, roundVal_zero, abs_zero]
    exact ⟨rfl, hp⟩
  · have e : r = roundVal q := (real_T.fin.inj h).symm
    rw [e]
    exact ⟨rfl, abs_lt.mpr ⟨by linarith, by linarith⟩⟩

/-- A finite result of rounding is a binary64 value. -/
theorem round64_idem (q r : ℚ) (h : round64 q = fin r) : isBinary64 r := by
  obtain ⟨e, hb⟩ := round64_eq_fin q r h
  have hi : roundVal r = r := by rw [e, roundVal_idem]
  unfold isBinary64
  have := round64_of_abs_lt r (by rw [hi]; exact hb)
  rw [this, hi]

theorem round64_nonneg (q : ℚ) (h : 0 ≤ q) :
    round64 q = pinf ∨ ∃ r, 0 ≤ r ∧ round64 q = fin r := by
  have hv := roundVal_nonneg q h
  have hp := pow2_pos 1024
  rcases round64_cases q with c | c | c
  · exact Or.inl c
  · exfalso
    unfold round64 at c
    split_ifs at c with a b d
    linarith
  · exact Or.inr ⟨_, hv, c⟩

theorem round64_nonpos (q : ℚ) (h : q ≤ 0) :
    round64 q = ninf ∨ ∃ r, r ≤ 0 ∧ round64 q = fin r := by
  have hv := roundVal_nonpos q h
  have hp := pow2_pos 1024
  rcases round64_cases q with c | c | c
  · exfalso
    unfold round64 at c
    split_ifs at c with a b
    linarith
  · exact Or.inl c
  · exact Or.inr ⟨_, hv, c⟩

theorem pow2_zero : pow2 0 = 1 := by
  rw [pow2_eq]
  simp

theorem roundVal_ge_one (q : ℚ) (h : 1 ≤ q) : 1 ≤ roundVal q := by
  have hq0 : (0 : ℚ) ≤ q := by linarith
  have habs : |q| = q := abs_of_nonneg hq0
  have hn : pow2 (-1022) ≤ |q| := by
    rw [habs]
    have : pow2 (-1022) ≤ pow2 0 := pow2_le_pow2 (by norm_num)
    rw [pow2_zero] at this
    linarith
  obtain ⟨lo, _⟩ := roundVal_normal q hn
  have hq : q ≠ 0 := by
    intro e
    rw [e] at h
    norm_num at h
  obtain ⟨a, b⟩ := ilog2_spec q hq
  have he : 0 ≤ ilog2 q := by
    by_contra hc
    have : pow2 (ilog2 q + 1) ≤ pow2 0 := pow2_le_pow2 (by omega)
    rw [pow2_zero] at this
    rw [habs] at b
    linarith
  have h1 : (1 : ℚ) ≤ pow2 (ilog2 q) := by
    have := pow2_le_pow2 he
    rw [pow2_zero] at this
    exact this
  rw [abs_of_nonneg (roundVal_nonneg q hq0)] at lo
  linarith

theorem round64_ge_one (q : ℚ) (h : 1 ≤ q) :
    round64 q = pinf ∨ ∃ r, 1 ≤ r ∧ round64 q = fin r := by
  rcases round64_nonneg q (by linarith) with c | ⟨r, _, c⟩
  · exact Or.inl c
  · right
    have := (round64_eq_fin q r c).1
    exact ⟨r, by rw [this]; exact roundVal_ge_one q h, c⟩

/-- Integers of magnitude at most `2 ^ 53` are binary64 values. -/
theorem isBinary64_intCast (z : ℤ) (h : |z| ≤ 2 ^ 53) : isBinary64 (z : ℚ) := by
  by_cases hz : z = 0
  · subst hz
    unfold isBinary64
    simpa using round64_zero
  have hq : (z : ℚ) ≠ 0 := by exact_mod_cast hz
  have habs1 : (1 : ℚ) ≤ |(z : ℚ)| := by
    have : 1 ≤ |z| := Int.one_le_abs hz
    exact_mod_cast this
  have habs2 : |(z : ℚ)| ≤ pow2 53 := by
    rw [pow2_eq]
    have : ((|z| : ℤ) : ℚ) ≤ (((2 : ℤ) ^ 53 : ℤ) : ℚ) := by exact_mod_cast h
    rw [Int.cast_abs] at this
    push_cast at this
    rw [zpow_ofNat]
    exact this
  have hn : pow2 (-1022) ≤ |(z : ℚ)| := by
    have : pow2 (-1022) ≤ pow2 0 := pow2_le_pow2 (by norm_num)
    rw [pow2_zero] at this
    linarith
  obtain ⟨a, b⟩ := ilog2_spec (z : ℚ) hq
  have he0 : 0 ≤ ilog2 (z : ℚ) := by
    by_contra hc
    have : pow2 (ilog2 (z : ℚ) + 1) ≤ pow2 0 := pow2_le_pow2 (by omega)
    rw [pow2_zero] at this
    linarith
  have he1 : ilog2 (z : ℚ) ≤ 53 := by
    by_contra hc
    have : pow2 53 < pow2 (ilog2 (z : ℚ)) := pow2_lt_pow2 (by omega)
    linarith
  have hval : roundVal (z : ℚ) = (z : ℚ) := by
    rcases lt_or_eq_of_le he1 with hlt | heq
    · have hk : 0 ≤ 52 - ilog2 (z : ℚ) := by omega
      apply roundVal_of_int_mul _ (z * 2 ^ (52 - ilog2 (z : ℚ)).toNat)
      rw [ulp_of_normal _ hn, pow2_eq]
      push_cast
      have : ((2 : ℚ) ^ (52 - ilog2 (z : ℚ)).toNat) = (2 : ℚ) ^ (52 - ilog2 (z : ℚ)) := by
        rw [← zpow_natCast, Int.toNat_of_nonneg hk]
      rw [this, mul_assoc, ← zpow_add₀ (by norm_num)]
      simp
    · rw [heq] at a
      have habs : |(z : ℚ)| = pow2 53 := le_antisymm habs2 a
      rcases le_total 0 (z : ℚ) with hp | hm
      · apply roundVal_of_int_mul _ ((2 : ℤ) ^ 52)
        rw [ulp_of_normal _ hn, heq, ← abs_of_nonneg hp, habs]
        have := pow2_split 53 52
        exact_mod_cast this
      · apply roundVal_of_int_mul _ (-(2 : ℤ) ^ 52)
        rw [ulp_of_normal _ hn, heq]
        have e : (z : ℚ) = -|(z : ℚ)| := by rw [abs_of_nonpos hm]; ring
        have := pow2_split 53 52
        rw [e, habs, this]
        push_cast
        ring
  unfold isBinary64
  have hlt : |roundVal (z : ℚ)| < pow2 1024 := by
    rw [hval]
    exact lt_of_le_of_lt habs2 (pow2_lt_pow2 (by norm_num))
  rw [round64_of_abs_lt _ hlt, hval]

theorem isBinary64_natCast (n : ℕ) (h : n ≤ 2 ^ 53) : isBinary64 (n : ℚ) := by
  have := isBinary64_intCast (n : ℤ) (by rw [abs_of_nonneg (by positivity)]; exact_mod_cast h)
  simpa using this

theorem sub_fin (p q : ℚ) : sub (fin p) (fin q) = round64 (p - q) := by
  show round64 (p + -q) = round64 (p - q)
  rw [sub_eq_add_neg]

theorem add_fin (p q : ℚ) : add (fin p) (fin q) = round64 (p + q) := rfl

theorem div_fin (p q : ℚ) (hq : q ≠ 0) : div (fin p) (fin q) = round64 (p / q) := by
  show (if q = 0 then _ else round64 (p / q)) = _
  rw [if_neg hq]

theorem lt_fin (p q : ℚ) : lt (fin p) (fin q) = decide (p < q) := rfl

theorem le_fin (p q : ℚ) : le (fin p) (fin q) = decide (p ≤ q) := rfl

/-- With a positive resolution the computed grid coordinate is a finite value
or an infinity, never a NaN. -/
theorem gridCoord_ne_nan (v o res : ℚ) (hres : 0 < res) :
    div (sub (fin v) (fin o)) (fin res) ≠ nan := by
  rw [sub_fin]
  rcases round64_cases (v - o) with h | h | h <;> rw [h]
  · show (if 0 ≤ res then pinf else ninf) ≠ nan
    rw [if_pos (le_of_lt hres)]
    simp
  · show (if 0 ≤ res then ninf else pinf) ≠ nan
    rw [if_pos (le_of_lt hres)]
    simp
  · rw [div_fin _ _ (ne_of_gt hres)]
    exact round64_ne_nan _

/-- The floor and the two index clamps of lines 154-169 give the base index. -/
theorem clamp_floor_eq64 (f : real_T) (hf : f ≠ nan) :
    (if le (fin 100) (if lt (muDoubleScalarFloor f) (fin 0) then fin 0
        else muDoubleScalarFloor f) then fin 99
      else (if lt (muDoubleScalarFloor f) (fin 0) then fin 0 else muDoubleScalarFloor f))
      = fin (baseIndex f : ℚ) := by
  cases f with
  | nan => exact absurd rfl hf
  | pinf => simp [muDoubleScalarFloor, lt, le, baseIndex]
  | ninf => simp [muDoubleScalarFloor, lt, le, baseIndex]
  | fin q =>
    have hb := DemInterpolate.clamp_floor_eq q
    unfold DemInterpolate.muDoubleScalarFloor at hb
    simp only [muDoubleScalarFloor, baseIndex, lt_fin, decide_eq_true_eq]
    by_cases h0 : ((⌊q⌋ : ℤ) : ℚ) < 0
    · rw [if_pos h0] at hb ⊢
      rw [if_neg (by norm_num)] at hb
      simp only [le_fin, decide_eq_true_eq]
      rw [if_neg (by norm_num), hb]
    · rw [if_neg h0] at hb ⊢
      simp only [le_fin, decide_eq_true_eq]
      by_cases h1 : ((⌊q⌋ : ℤ) : ℚ) ≥ 100
      · rw [if_pos h1] at hb
        rw [if_pos h1, hb]
      · rw [if_neg h1] at hb
        rw [if_neg h1, hb]

theorem gridPosition_eq (demData : struct0_T) (x y : ℚ) (hres : 0 < demData.resolution) :
    gridPosition demData x y =
      (fin (baseIndex (colF demData x) : ℚ), fin (baseIndex (rowF demData y) : ℚ),
        weight (colF demData x), weight (rowF demData y)) := by
  have hx := clamp_floor_eq64 _ (gridCoord_ne_nan x (demData.X 0) demData.resolution hres)
  have hy := clamp_floor_eq64 _ (gridCoord_ne_nan y (demData.Y 0) demData.resolution hres)
  unfold gridPosition weight colF rowF
  simp only [hx, hy]

theorem add_natCast (n k : ℕ) (h : n + k ≤ 2 ^ 53) :
    add (fin (n : ℚ)) (fin (k : ℚ)) = fin ((n : ℚ) + (k : ℚ)) := by
  rw [add_fin]
  have := isBinary64_natCast (n + k) h
  unfold isBinary64 at this
  push_cast at this
  exact this

theorem int32_cast_natCast_add64 (n k : ℕ) (h : n + k ≤ 2147483647) :
    int32_cast (fin ((n : ℚ) + (k : ℚ))) = .ok ((n : ℤ) + (k : ℤ)) := by
  have e : (n : ℚ) + (k : ℚ) = (((n : ℤ) + (k : ℤ) : ℤ) : ℚ) := by push_cast; rfl
  rw [e]
  unfold int32_cast
  simp only [Int.floor_intCast, Int.ceil_intCast, ite_self]
  rw [if_pos ⟨by omega, by omega⟩]

theorem emlrtIntegerCheck_natCast_add64 (n k : ℕ) (h : n + k ≤ 2147483647) :
    emlrtIntegerCheck (fin ((n : ℚ) + (k : ℚ))) = .ok () := by
  unfold emlrtIntegerCheck
  rw [int32_cast_natCast_add64 n k h]
  simp [bind, Except.bind]

theorem readZ_eq64 (demData : struct0_T) (r c : ℕ) (hr : r ≤ 100) (hc : c ≤ 100) :
    readZ demData ((r : ℤ) + 101 * (c : ℤ)) = .ok (fin (elevations demData r c)) := by
  unfold readZ elevations
  have h : (0 : ℤ) ≤ (r : ℤ) + 101 * (c : ℤ) ∧ (r : ℤ) + 101 * (c : ℤ) < 10201 := by omega
  have h' : r + 101 * c < 10201 := by omega
  rw [dif_pos h, dif_pos h']
  congr 3

theorem baseIndex_le64 (f : real_T) : baseIndex f ≤ 99 := by
  cases f with
  | fin q => exact DemInterpolate.baseIndex_le q
  | pinf => exact le_rfl
  | ninf => exact Nat.zero_le _
  | nan => exact Nat.zero_le _

/-- With a positive resolution the binary64 routine never fails and returns
the binary64 blend of the specification. -/
theorem demInterpolate_eq64 (demData : struct0_T) (x y : ℚ) (hres : 0 < demData.resolution) :
    demInterpolate demData x y = .ok (elevationAt demData x y) := by
  unfold demInterpolate elevationAt blend
  rw [gridPosition_eq demData x y hres]
  have hn := baseIndex_le64 (colF demData x)
  have hm := baseIndex_le64 (rowF demData y)
  generalize baseIndex (colF demData x) = n at hn ⊢
  generalize baseIndex (rowF demData y) = m at hm ⊢
  have an1 := add_natCast n 1 (by omega)
  have an2 := add_natCast n 2 (by omega)
  have am1 := add_natCast m 1 (by omega)
  have am2 := add_natCast m 2 (by omega)
  have cn1 := emlrtIntegerCheck_natCast_add64 n 1 (by omega)
  have cn2 := emlrtIntegerCheck_natCast_add64 n 2 (by omega)
  have cm1 := emlrtIntegerCheck_natCast_add64 m 1 (by omega)
  have cm2 := emlrtIntegerCheck_natCast_add64 m 2 (by omega)
  have kn1 := int32_cast_natCast_add64 n 1 (by omega)
  have kn2 := int32_cast_natCast_add64 n 2 (by omega)
  have km1 := int32_cast_natCast_add64 m 1 (by omega)
  have km2 := int32_cast_natCast_add64 m 2 (by omega)
  have o11 : wrapInt32 (wrapInt32 (((m : ℤ) + 1) + wrapInt32 (101 * wrapInt32 (((n : ℤ) + 1) - 1)))
      - 1) = (m : ℤ) + 101 * (n : ℤ) := by
    unfold wrapInt32
    omega
  have o21 : wrapInt32 (wrapInt32 (((m : ℤ) + 1) + wrapInt32 (101 * wrapInt32 (((n : ℤ) + 2) - 1)))
      - 1) = (m : ℤ) + 101 * ((n : ℤ) + 1) := by
    unfold wrapInt32
    omega
  have o12 : wrapInt32 (wrapInt32 (((m : ℤ) + 2) + wrapInt32 (101 * wrapInt32 (((n : ℤ) + 1) - 1)))
      - 1) = ((m : ℤ) + 1) + 101 * (n : ℤ) := by
    unfold wrapInt32
    omega
  have o22 : wrapInt32 (wrapInt32 (((m : ℤ) + 2) + wrapInt32 (101 * wrapInt32 (((n : ℤ) + 2) - 1)))
      - 1) = ((m : ℤ) + 1) + 101 * ((n : ℤ) + 1) := by
    unfold wrapInt32
    omega
  have r11 := readZ_eq64 demData m n (by omega) (by omega)
  have r21 := readZ_eq64 demData m (n + 1) (by omega) (by omega)
  have r12 := readZ_eq64 demData (m + 1) n (by omega) (by omega)
  have r22 := readZ_eq64 demData (m + 1) (n + 1) (by omega) (by omega)
  push_cast at an1 an2 am1 am2 cn1 cn2 cm1 cm2 kn1 kn2 km1 km2 r11 r21 r12 r22
  simp only [an1, an2, am1, am2, cn1, cn2, cm1, cm2, kn1, kn2, km1, km2, bind, Except.bind,
    o11, o21, o12, o22, r11, r21, r12, r22, pure, Except.pure]

theorem round64_one : round64 1 = fin 1 := by
  have := isBinary64_natCast 1 (by norm_num)
  unfold isBinary64 at this
  simpa using this

theorem round64_fin_of_lt (q : ℚ) (h : |q| < pow2 1023) :
    round64 q = fin (roundVal q) ∧ |roundVal q| ≤ pow2 1023 := by
  have hb : |roundVal q| ≤ pow2 1023 := by
    by_cases hq : q = 0
    · rw [hq, roundVal_zero, abs_zero]
      exact le_of_lt (pow2_pos _)
    rcases le_or_lt (pow2 (-1022)) |q| with hn | hs
    · obtain ⟨_, hi⟩ := roundVal_normal q hn
      obtain ⟨a, _⟩ := ilog2_spec q hq
      have : ilog2 q + 1 ≤ 1023 := by
        by_contra hc
        have : pow2 1023 ≤ pow2 (ilog2 q) := pow2_le_pow2 (by omega)
        linarith
      exact le_trans hi (pow2_le_pow2 this)
    · exact le_trans (roundVal_subnormal q hq hs) (pow2_le_pow2 (by norm_num))
  exact ⟨round64_of_abs_lt q (lt_of_le_of_lt hb (pow2_lt_pow2 (by norm_num))), hb⟩

theorem zero_add_round (q : ℚ) : add (fin 0) (round64 q) = round64 q := by
  rcases round64_cases q with h | h | h
  · rw [h]
    rfl
  · rw [h]
    rfl
  · have hi := round64_idem q _ h
    unfold isBinary64 at hi
    rw [h, add_fin, zero_add, hi]

/-- The two weight clamps of lines 177-188 on a finite value. -/
theorem weight_of_sub_fin (f : real_T) (r : ℚ) (h : sub f (fin (baseIndex f : ℚ)) = fin r) :
    weight f = fin (max 0 (min 1 r)) := by
  unfold weight
  simp only [h, lt_fin]
  by_cases h0 : r < 0
  · have : max 0 (min 1 r) = 0 := max_eq_left (le_trans (min_le_right _ _) (le_of_lt h0))
    rw [this]
    simp [h0, lt_fin]
  · push_neg at h0
    by_cases h1 : 1 < r
    · have : max 0 (min 1 r) = 1 := by
        rw [min_eq_left (le_of_lt h1)]
        exact max_eq_right (by norm_num)
      rw [this]
      simp [not_lt.mpr h0, h1, lt_fin]
    · push_neg at h1
      have : max 0 (min 1 r) = r := by
        rw [min_eq_right h1]
        exact max_eq_right h0
      rw [this]
      simp [not_lt.mpr h0, not_lt.mpr h1, lt_fin]

/-- A computed coordinate that is non-positive or `-Inf` has base index `0`
and weight exactly `0`. -/
theorem axis_low64 (f : real_T) (h : f = ninf ∨ ∃ q, q ≤ 0 ∧ f = fin q) :
    baseIndex f = 0 ∧ weight f = fin 0 := by
  rcases h with h | ⟨q, hq, h⟩
  · subst h
    exact ⟨rfl, rfl⟩
  · subst h
    have hb : baseIndex (fin q) = 0 := DemInterpolate.baseIndex_of_nonpos q hq
    refine ⟨hb, ?_⟩
    rcases round64_nonpos (q - ((0 : ℕ) : ℚ)) (by push_cast; linarith) with e | ⟨r, hr, e⟩
    · unfold weight
      rw [hb, sub_fin, e]
      rfl
    · rw [weight_of_sub_fin _ r (by rw [hb, sub_fin, e])]
      congr 1
      exact max_eq_left (le_trans (min_le_right _ _) hr)

/-- A computed coordinate that is at least `100` or `+Inf` has base index `99`
and weight exactly `1`. -/
theorem axis_high64 (f : real_T) (h : le (fin 100) f = true) :
    baseIndex f = 99 ∧ weight f = fin 1 := by
  cases f with
  | nan => simp [le] at h
  | ninf => simp [le] at h
  | pinf => exact ⟨rfl, rfl⟩
  | fin q =>
    rw [le_fin, decide_eq_true_eq] at h
    have hb : baseIndex (fin q) = 99 := DemInterpolate.baseIndex_of_ge q h
    refine ⟨hb, ?_⟩
    rcases round64_ge_one (q - ((99 : ℕ) : ℚ)) (by push_cast; linarith) with e | ⟨r, hr, e⟩
    · unfold weight
      rw [hb, sub_fin, e]
      rfl
    · rw [weight_of_sub_fin _ r (by rw [hb, sub_fin, e])]
      congr 1
      rw [min_eq_left hr]
      exact max_eq_right (by norm_num)

/-- At or below the origin of an axis the computed coordinate is non-positive
or `-Inf`. -/
theorem gridCoord_low (v o res : ℚ) (hres : 0 < res) (h : v ≤ o) :
    div (sub (fin v) (fin o)) (fin res) = ninf ∨
      ∃ q, q ≤ 0 ∧ div (sub (fin v) (fin o)) (fin res) = fin q := by
  rw [sub_fin]
  rcases round64_nonpos (v - o) (by linarith) with e | ⟨r, hr, e⟩
  · left
    rw [e]
    show (if 0 ≤ res then ninf else pinf) = ninf
    rw [if_pos (le_of_lt hres)]
  · rw [e, div_fin _ _ (ne_of_gt hres)]
    rcases round64_nonpos (r / res) (div_nonpos_of_nonpos_of_nonneg hr (le_of_lt hres))
      with e' | ⟨r', hr', e'⟩
    · exact Or.inl e'
    · exact Or.inr ⟨r', hr', e'⟩

/-- The binary64 specification value when the base indices and weights of both
computed coordinates are known. -/
theorem elevationAt_of64 (demData : struct0_T) (x y : ℚ) (c r : ℕ) (wx wy : real_T)
    (hc : baseIndex (colF demData x) = c) (hr : baseIndex (rowF demData y) = r)
    (hwx : weight (colF demData x) = wx) (hwy : weight (rowF demData y) = wy) :
    elevationAt demData x y =
      blend (fin (elevations demData r c)) (fin (elevations demData r (c + 1)))
        (fin (elevations demData (r + 1) c)) (fin (elevations demData (r + 1) (c + 1))) wx wy := by
  unfold elevationAt
  simp only [hc, hr, hwx, hwy]

theorem pow2_half (e : ℤ) : pow2 e / 2 = pow2 (e - 1) := by
  have := pow2_add (e - 1) 1
  rw [show e - 1 + 1 = e by ring] at this
  rw [this]
  have h1 : pow2 1 = 2 := by
    rw [pow2_eq]
    norm_num
  rw [h1]
  ring

/-- Below the overflow range rounding returns a finite value with relative
error at most `2 ^ (-53)`, or absolute error at most `2 ^ (-1075)` in the
subnormal range. -/
theorem round64_error (q : ℚ) (h : |q| < pow2 1023) :
    round64 q = fin (roundVal q) ∧ |roundVal q - q| ≤ pow2 (-53) * |q| + pow2 (-1075) := by
  refine ⟨(round64_fin_of_lt q h).1, ?_⟩
  have hη := pow2_pos (-1075)
  have hε := pow2_pos (-53)
  by_cases hq : q = 0
  · rw [hq, roundVal_zero, sub_zero, abs_zero, mul_zero, zero_add]
    exact le_of_lt hη
  have hu := roundVal_abs_sub q
  rcases le_or_lt (pow2 (-1022)) |q| with hn | hs
  · obtain ⟨a, _⟩ := ilog2_spec q hq
    rw [ulp_of_normal q hn, pow2_half] at hu
    have e : pow2 (ilog2 q - 52 - 1) = pow2 (-53) * pow2 (ilog2 q) := by
      rw [← pow2_add]
      congr 1
      ring
    rw [e] at hu
    have : pow2 (-53) * pow2 (ilog2 q) ≤ pow2 (-53) * |q| :=
      mul_le_mul_of_nonneg_left a (le_of_lt hε)
    have hnn : 0 ≤ pow2 (-53) * |q| := mul_nonneg (le_of_lt hε) (abs_nonneg q)
    linarith
  · rw [ulp_of_subnormal q hq hs, pow2_half] at hu
    have e : pow2 (-1074 - 1) = pow2 (-1075) := rfl
    rw [e] at hu
    have hnn : 0 ≤ pow2 (-53) * |q| := mul_nonneg (le_of_lt hε) (abs_nonneg q)
    linarith

/-- Rounding keeps the unit interval. -/
theorem roundVal_unit (q : ℚ) (h₀ : 0 ≤ q) (h₁ : q ≤ 1) :
    0 ≤ roundVal q ∧ roundVal q ≤ 1 := by
  refine ⟨roundVal_nonneg q h₀, ?_⟩
  rcases eq_or_lt_of_le h₁ with e | hlt
  · have := round64_one
    have h := (round64_eq_fin 1 1 this).1
    rw [e, ← h]
  by_cases hq : q = 0
  · rw [hq, roundVal_zero]
    norm_num
  have habs : |q| = q := abs_of_nonneg h₀
  have hle : roundVal q ≤ |roundVal q| := le_abs_self _
  rcases le_or_lt (pow2 (-1022)) |q| with hn | hs
  · obtain ⟨_, hi⟩ := roundVal_normal q hn
    obtain ⟨a, _⟩ := ilog2_spec q hq
    have : ilog2 q + 1 ≤ 0 := by
      by_contra hc
      have : pow2 0 ≤ pow2 (ilog2 q) := pow2_le_pow2 (by omega)
      rw [pow2_zero, habs] at *
      linarith
    have h1 := pow2_le_pow2 this
    rw [pow2_zero] at h1
    linarith
  · have := roundVal_subnormal q hq hs
    have h1 : pow2 (-1022) ≤ pow2 0 := pow2_le_pow2 (by norm_num)
    rw [pow2_zero] at h1
    linarith

/-- The weight of a non-NaN computed coordinate is a finite value in
`[0, 1]`. -/
theorem weight_unit (f : real_T) (hf : f ≠ nan) :
    ∃ w, weight f = fin w ∧ 0 ≤ w ∧ w ≤ 1 := by
  have key : ∀ v : real_T, v ≠ nan →
      ∃ w, (if lt (fin 1) (if lt v (fin 0) then fin 0 else v) then fin 1
        else (if lt v (fin 0) then fin 0 else v)) = fin w ∧ 0 ≤ w ∧ w ≤ 1 := by
    intro v hv
    cases v with
    | nan => exact absurd rfl hv
    | pinf => exact ⟨1, by simp [lt], by norm_num, le_rfl⟩
    | ninf => exact ⟨0, by simp [lt], le_rfl, by norm_num⟩
    | fin r =>
      simp only [lt_fin, decide_eq_true_eq]
      by_cases h0 : r < 0
      · exact ⟨0, by simp [h0, lt_fin], le_rfl, by norm_num⟩
      · by_cases h1 : 1 < r
        · exact ⟨1, by simp [h0, h1, lt_fin], by norm_num, le_rfl⟩
        · exact ⟨r, by simp [h0, h1, lt_fin], not_lt.mp h0, not_lt.mp h1⟩
  have hs : sub f (fin (baseIndex f : ℚ)) ≠ nan := by
    cases f with
    | nan => exact absurd rfl hf
    | pinf => simp [sub, neg, add]
    | ninf => simp [sub, neg, add]
    | fin q =>
      rw [sub_fin]
      exact round64_ne_nan _
  unfold weight
  exact key _ hs

/-- One rounding of a value of magnitude at most `A`. -/
theorem round_step (A ρ : ℚ) (hA : A < pow2 1023) (hρ : pow2 (-53) * A + pow2 (-1075) ≤ ρ)
    (q : ℚ) (h : |q| ≤ A) :
    round64 q = fin (roundVal q) ∧ |roundVal q - q| ≤ ρ := by
  obtain ⟨e, b⟩ := round64_error q (lt_of_le_of_lt h hA)
  refine ⟨e, le_trans b ?_⟩
  have : pow2 (-53) * |q| ≤ pow2 (-53) * A :=
    mul_le_mul_of_nonneg_left h (le_of_lt (pow2_pos _))
  linarith

/-- A rounded product with a factor in `[0, 1]`: the error grows by one
rounding. -/
theorem mul_step (A ρ : ℚ) (hA : A < pow2 1023) (hρ : pow2 (-53) * A + pow2 (-1075) ≤ ρ)
    (p pe w M d : ℚ) (hw₀ : 0 ≤ w) (hw₁ : w ≤ 1) (hpe : |pe| ≤ M) (hp : |p - pe| ≤ d)
    (hM : M + d ≤ A) :
    mul (fin p) (fin w) = fin (roundVal (p * w)) ∧ |roundVal (p * w) - pe * w| ≤ d + ρ ∧
      |pe * w| ≤ M := by
  have hpabs : |p| ≤ M + d := by
    have : |p| ≤ |p - pe| + |pe| := by
      have := abs_add (p - pe) pe
      rwa [sub_add_cancel] at this
    linarith
  have hmul : ∀ t : ℚ, |t * w| ≤ |t| := by
    intro t
    rw [abs_mul, abs_of_nonneg hw₀]
    exact mul_le_of_le_one_right (abs_nonneg t) hw₁
  obtain ⟨e, b⟩ := round_step A ρ hA hρ (p * w) (le_trans (le_trans (hmul p) hpabs) hM)
  refine ⟨e, ?_, le_trans (hmul pe) hpe⟩
  have h1 : |p * w - pe * w| ≤ d := by
    rw [← sub_mul]
    exact le_trans (hmul _) hp
  have h2 : |roundVal (p * w) - pe * w| ≤ |roundVal (p * w) - p * w| + |p * w - pe * w| :=
    abs_sub_le _ _ _
  linarith

/-- A rounded sum: the errors add up and grow by one rounding. -/
theorem add_step (A ρ : ℚ) (hA : A < pow2 1023) (hρ : pow2 (-53) * A + pow2 (-1075) ≤ ρ)
    (s se t te M₁ M₂ d₁ d₂ : ℚ) (hse : |se| ≤ M₁) (hte : |te| ≤ M₂) (hs : |s - se| ≤ d₁)
    (ht : |t - te| ≤ d₂) (hM : M₁ + M₂ + d₁ + d₂ ≤ A) :
    add (fin s) (fin t) = fin (roundVal (s + t)) ∧
      |roundVal (s + t) - (se + te)| ≤ d₁ + d₂ + ρ ∧ |se + te| ≤ M₁ + M₂ := by
  have hsum : |se + te| ≤ M₁ + M₂ := le_trans (abs_add _ _) (by linarith)
  have hdiff : |s + t - (se + te)| ≤ d₁ + d₂ := by
    have : s + t - (se + te) = (s - se) + (t - te) := by ring
    rw [this]
    exact le_trans (abs_add _ _) (by linarith)
  have habs : |s + t| ≤ M₁ + M₂ + d₁ + d₂ := by
    have : |s + t| ≤ |s + t - (se + te)| + |se + te| := by
      have := abs_add (s + t - (se + te)) (se + te)
      rwa [sub_add_cancel] at this
    linarith
  obtain ⟨e, b⟩ := round_step A ρ hA hρ (s + t) (le_trans habs hM)
  refine ⟨e, ?_, hsum⟩
  have h2 : |roundVal (s + t) - (se + te)|
      ≤ |roundVal (s + t) - (s + t)| + |s + t - (se + te)| := abs_sub_le _ _ _
  linarith

theorem abs_mul3_le (z δ w K α : ℚ) (hz : |z| ≤ K) (hδ : |δ| ≤ α) (hw₀ : 0 ≤ w) (hw₁ : w ≤ 1) :
    |z * δ * w| ≤ K * α := by
  have hK : 0 ≤ K := le_trans (abs_nonneg z) hz
  rw [abs_mul, abs_mul, abs_of_nonneg hw₀]
  have h1 : |z| * |δ| ≤ K * α := mul_le_mul hz hδ (abs_nonneg δ) hK
  have h2 : |z| * |δ| * w ≤ |z| * |δ| :=
    mul_le_of_le_one_right (mul_nonneg (abs_nonneg z) (abs_nonneg δ)) hw₁
  linarith

/-- Forward error of the binary64 blend: for corner values of magnitude at
most `K ≤ 2 ^ 1000` and weights in `[0, 1]` the blend is finite and within
`2 ^ (-47) * K + 2 ^ (-1071)` of the exact blend. -/
theorem blend_tolerance (z00 z10 z01 z11 wx wy K : ℚ) (hK : K ≤ pow2 1000)
    (h00 : |z00| ≤ K) (h10 : |z10| ≤ K) (h01 : |z01| ≤ K) (h11 : |z11| ≤ K)
    (hwx₀ : 0 ≤ wx) (hwx₁ : wx ≤ 1) (hwy₀ : 0 ≤ wy) (hwy₁ : wy ≤ 1) :
    ∃ v, blend (fin z00) (fin z10) (fin z01) (fin z11) (fin wx) (fin wy) = fin v ∧
      |v - DemInterpolate.blend z00 z10 z01 z11 wx wy| ≤ pow2 (-47) * K + pow2 (-1071) := by
  have hK₀ : 0 ≤ K := le_trans (abs_nonneg z00) h00
  have hη := pow2_pos (-1075)
  have hε : pow2 (-53) = 1 / 9007199254740992 := by
    rw [pow2_eq]
    norm_num
  have h47 : pow2 (-47) = 64 * pow2 (-53) := by
    have := pow2_add 6 (-53)
    rw [show (6 : ℤ) + -53 = -47 from rfl] at this
    rw [this, pow2_eq 6]
    norm_num
  have h1071 : pow2 (-1071) = 16 * pow2 (-1075) := by
    have := pow2_add 4 (-1075)
    rw [show (4 : ℤ) + -1075 = -1071 from rfl] at this
    rw [this, pow2_eq 4]
    norm_num
  have hηε : pow2 (-1075) ≤ pow2 (-53) := pow2_le_pow2 (by norm_num)
  have hη1 : pow2 (-1075) ≤ 1 := by
    have := pow2_le_pow2 (show (-1075 : ℤ) ≤ 0 by norm_num)
    rwa [pow2_zero] at this
  have hbig : 16 * pow2 1000 ≤ pow2 1023 := by
    have h1 : pow2 1004 = 16 * pow2 1000 := by
      have := pow2_add 4 1000
      rw [show (4 : ℤ) + 1000 = 1004 from rfl] at this
      rw [this, pow2_eq 4]
      norm_num
    rw [← h1]
    exact pow2_le_pow2 (by norm_num)
  have h1000 : 1 ≤ pow2 1000 := by
    have := pow2_le_pow2 (show (0 : ℤ) ≤ 1000 by norm_num)
    rwa [pow2_zero] at this
  have hKη : K * pow2 (-1075) ≤ K * pow2 (-53) := mul_le_mul_of_nonneg_left hηε hK₀
  have hone : (1 : ℚ) < pow2 1023 := by linarith
  generalize hηdef : pow2 (-1075) = η at *
  -- the two rounded complements of the weights
  have hcx : |1 - wx| ≤ 1 := abs_le.mpr ⟨by linarith, by linarith⟩
  have hcy : |1 - wy| ≤ 1 := abs_le.mpr ⟨by linarith, by linarith⟩
  obtain ⟨ea, ba⟩ := round64_error (1 - wx) (lt_of_le_of_lt hcx hone)
  obtain ⟨eb, bb⟩ := round64_error (1 - wy) (lt_of_le_of_lt hcy hone)
  rw [hηdef, hε] at ba bb
  obtain ⟨a₀, a₁⟩ := roundVal_unit (1 - wx) (by linarith) (by linarith)
  obtain ⟨b₀, b₁⟩ := roundVal_unit (1 - wy) (by linarith) (by linarith)
  have hα₁ : |roundVal (1 - wx) - (1 - wx)| ≤ 1 / 9007199254740992 + η := by
    have : 1 / 9007199254740992 * |1 - wx| ≤ 1 / 9007199254740992 * 1 :=
      mul_le_mul_of_nonneg_left hcx (by norm_num)
    linarith
  have hα₂ : |roundVal (1 - wy) - (1 - wy)| ≤ 1 / 9007199254740992 + η := by
    have : 1 / 9007199254740992 * |1 - wy| ≤ 1 / 9007199254740992 * 1 :=
      mul_le_mul_of_nonneg_left hcy (by norm_num)
    linarith
  rw [← sub_fin] at ea eb
  generalize roundVal (1 - wx) = a at *
  generalize roundVal (1 - wy) = b at *
  -- the rounding budget
  have hA : 5 * K + 20 * η < pow2 1023 := by linarith
  have hρ : pow2 (-53) * (5 * K + 20 * η) + pow2 (-1075)
      ≤ 1 / 9007199254740992 * (5 * K + 20 * η) + η := by
    rw [hηdef, hε]
  generalize hρdef : 1 / 9007199254740992 * (5 * K + 20 * η) + η = ρ at *
  have hρ₀ : 0 ≤ ρ := by
    rw [← hρdef]
    have : 0 ≤ 1 / 9007199254740992 * (5 * K + 20 * η) := by positivity
    linarith
  have hρ10 : 10 * ρ ≤ K + 20 * η := by
    rw [← hρdef]
    linarith
  have z0 : ∀ z : ℚ, |z - z| ≤ 0 := fun z => by rw [sub_self, abs_zero]
  -- the eight products
  obtain ⟨ep1, bp1, mp1⟩ := mul_step _ ρ hA hρ z00 z00 a K 0 a₀ a₁ h00 (z0 _) (by linarith)
  obtain ⟨et1, bt1, mt1⟩ := mul_step _ ρ hA hρ _ (z00 * a) b K (0 + ρ) b₀ b₁ mp1 bp1
    (by linarith)
  obtain ⟨ep2, bp2, mp2⟩ := mul_step _ ρ hA hρ z10 z10 wx K 0 hwx₀ hwx₁ h10 (z0 _)
    (by linarith)
  obtain ⟨et2, bt2, mt2⟩ := mul_step _ ρ hA hρ _ (z10 * wx) b K (0 + ρ) b₀ b₁ mp2 bp2
    (by linarith)
  obtain ⟨ep3, bp3, mp3⟩ := mul_step _ ρ hA hρ z01 z01 a K 0 a₀ a₁ h01 (z0 _) (by linarith)
  obtain ⟨et3, bt3, mt3⟩ := mul_step _ ρ hA hρ _ (z01 * a) wy K (0 + ρ) hwy₀ hwy₁ mp3 bp3
    (by linarith)
  obtain ⟨ep4, bp4, mp4⟩ := mul_step _ ρ hA hρ z11 z11 wx K 0 hwx₀ hwx₁ h11 (z0 _)
    (by linarith)
  obtain ⟨et4, bt4, mt4⟩ := mul_step _ ρ hA hρ _ (z11 * wx) wy K (0 + ρ) hwy₀ hwy₁ mp4 bp4
    (by linarith)
  -- the three sums
  obtain ⟨es1, bs1, ms1⟩ := add_step _ ρ hA hρ _ (z00 * a * b) _ (z10 * wx * b) K K
    (0 + ρ + ρ) (0 + ρ + ρ) mt1 mt2 bt1 bt2 (by linarith)
  obtain ⟨es2, bs2, ms2⟩ := add_step _ ρ hA hρ _ (z00 * a * b + z10 * wx * b) _ (z01 * a * wy)
    (K + K) K (0 + ρ + ρ + (0 + ρ + ρ) + ρ) (0 + ρ + ρ) ms1 mt3 bs1 bt3 (by linarith)
  obtain ⟨es3, bs3, _⟩ := add_step _ ρ hA hρ _ (z00 * a * b + z10 * wx * b + z01 * a * wy) _
    (z11 * wx * wy) (K + K + K) K (0 + ρ + ρ + (0 + ρ + ρ) + ρ + (0 + ρ + ρ) + ρ) (0 + ρ + ρ)
    ms2 mt4 bs2 bt4 (by linarith)
  refine ⟨roundVal (roundVal (roundVal (roundVal (roundVal (z00 * a) * b)
        + roundVal (roundVal (z10 * wx) * b)) + roundVal (roundVal (z01 * a) * wy))
        + roundVal (roundVal (z11 * wx) * wy)), ?_, ?_⟩
  · unfold blend
    rw [ea, eb, ep1, et1, ep2, et2, ep3, et3, ep4, et4, es1, es2, es3]
  · -- the exact blend of the rounded complements against the exact blend
    have d1 := abs_mul3_le z00 (a - (1 - wx)) b K _ h00 hα₁ b₀ b₁
    have d2 := abs_mul3_le z00 (b - (1 - wy)) (1 - wx) K _ h00 hα₂ (by linarith) (by linarith)
    have d3 := abs_mul3_le z10 (b - (1 - wy)) wx K _ h10 hα₂ hwx₀ hwx₁
    have d4 := abs_mul3_le z01 (a - (1 - wx)) wy K _ h01 hα₁ hwy₀ hwy₁
    have hsplit : z00 * a * b + z10 * wx * b + z01 * a * wy + z11 * wx * wy
        - DemInterpolate.blend z00 z10 z01 z11 wx wy
        = z00 * (a - (1 - wx)) * b + z00 * (b - (1 - wy)) * (1 - wx)
          + z10 * (b - (1 - wy)) * wx + z01 * (a - (1 - wx)) * wy := by
      unfold DemInterpolate.blend
      ring
    have hexact : |z00 * a * b + z10 * wx * b + z01 * a * wy + z11 * wx * wy
        - DemInterpolate.blend z00 z10 z01 z11 wx wy|
        ≤ 4 * (K * (1 / 9007199254740992 + η)) := by
      rw [hsplit]
      have t1 := abs_add (z00 * (a - (1 - wx)) * b + z00 * (b - (1 - wy)) * (1 - wx)
        + z10 * (b - (1 - wy)) * wx) (z01 * (a - (1 - wx)) * wy)
      have t2 := abs_add (z00 * (a - (1 - wx)) * b + z00 * (b - (1 - wy)) * (1 - wx))
        (z10 * (b - (1 - wy)) * wx)
      have t3 := abs_add (z00 * (a - (1 - wx)) * b) (z00 * (b - (1 - wy)) * (1 - wx))
      linarith
    have htri := abs_sub_le (roundVal (roundVal (roundVal (roundVal (roundVal (z00 * a) * b)
        + roundVal (roundVal (z10 * wx) * b)) + roundVal (roundVal (z01 * a) * wy))
        + roundVal (roundVal (z11 * wx) * wy)))
      (z00 * a * b + z10 * wx * b + z01 * a * wy + z11 * wx * wy)
      (DemInterpolate.blend z00 z10 z01 z11 wx wy)
    rw [h47, h1071, hε]
    rw [hε] at hKη
    have hρval : 11 * ρ ≤ 55 / 9007199254740992 * K + 12 * η := by
      rw [← hρdef]
      linarith
    linarith

theorem abs_elevations_le (demData : struct0_T) (K : ℚ) (hZ : ∀ k, |demData.Z k| ≤ K)
    (r c : ℕ) : |elevations demData r c| ≤ K := by
  unfold elevations
  split_ifs
  · exact hZ _
  · rw [abs_zero]
    exact le_trans (abs_nonneg _) (hZ 0)

theorem small_le_pow2 (q : ℚ) (h : |q| ≤ 1099511627776) : |q| ≤ pow2 1000 := by
  have h1 : pow2 40 = 1099511627776 := by
    rw [pow2_eq]
    norm_num
  have h2 : pow2 40 ≤ pow2 1000 := pow2_le_pow2 (by norm_num)
  linarith

theorem one_ge_pow2_neg : pow2 (-1000) ≤ 1 := by
  have := pow2_le_pow2 (show (-1000 : ℤ) ≤ 0 by norm_num)
  rwa [pow2_zero] at this

/-- A buffer holding the offset `k` at offset `k` is the plane
`elevations[r, c] = 0 + 101 * c + 1 * r`. -/
theorem rampBuffer_affine (demData : struct0_T) (hZ : ∀ k, demData.Z k = (k.val : ℚ))
    (r c : ℕ) (hr : r ≤ 100) (hc : c ≤ 100) :
    elevations demData r c = 0 + 101 * (c : ℚ) + 1 * (r : ℚ) := by
  unfold elevations
  rw [dif_pos (by omega), hZ]
  push_cast
  ring

theorem rampBuffer_bound (k : Fin 10201) : |rampGrid.Z k| ≤ 10200 := by
  show |((k.val : ℕ) : ℚ)| ≤ 10200
  rw [abs_of_nonneg (by positivity)]
  have : k.val ≤ 10200 := by omega
  exact_mod_cast this

theorem baseIndex_bracket (f : ℚ) (h₀ : 0 ≤ f) (h₁ : f < 100) :
    (DemInterpolate.baseIndex f : ℚ) ≤ f ∧ f < (DemInterpolate.baseIndex f : ℚ) + 1 := by
  have hfl₀ : (0 : ℤ) ≤ ⌊f⌋ := Int.floor_nonneg.mpr h₀
  have hfl₁ : ⌊f⌋ < 100 := by
    rw [Int.floor_lt]
    exact_mod_cast h₁
  have hb : ((DemInterpolate.baseIndex f : ℕ) : ℤ) = ⌊f⌋ := by
    unfold DemInterpolate.baseIndex
    omega
  have hcast : ((DemInterpolate.baseIndex f : ℕ) : ℚ) = ((⌊f⌋ : ℤ) : ℚ) := by
    rw [← hb]
    norm_cast
  rw [hcast]
  exact ⟨Int.floor_le f, Int.lt_floor_add_one f⟩

/-- Inside the footprint of an axis, for coordinates of magnitude at most
`2 ^ 1000` and a spacing of at least `2 ^ (-1000)`, the computed coordinate is
finite and base index plus weight is within `2 ^ (-45)` of the exact grid
coordinate. -/
theorem axis_inside64 (v o res : ℚ) (hres : pow2 (-1000) ≤ res) (hv : |v| ≤ pow2 1000)
    (ho : |o| ≤ pow2 1000) (h₀ : o ≤ v) (h₁ : v ≤ o + 100 * res) :
    ∃ w, weight (div (sub (fin v) (fin o)) (fin res)) = fin w ∧ 0 ≤ w ∧ w ≤ 1 ∧
      |(baseIndex (div (sub (fin v) (fin o)) (fin res)) : ℚ) + w - (v - o) / res|
        ≤ pow2 (-45) := by
  have hres₀ : 0 < res := lt_of_lt_of_le (pow2_pos _) hres
  have hε : pow2 (-53) = 1 / 9007199254740992 := by
    rw [pow2_eq]
    norm_num
  have h45 : pow2 (-45) = 256 * pow2 (-53) := by
    have := pow2_add 8 (-53)
    rw [show (8 : ℤ) + -53 = -45 from rfl] at this
    rw [this, pow2_eq 8]
    norm_num
  have hθε : pow2 (-75) ≤ pow2 (-53) := pow2_le_pow2 (by norm_num)
  have hηθ : pow2 (-1075) ≤ pow2 (-75) := pow2_le_pow2 (by norm_num)
  have hη := pow2_pos (-1075)
  have hθres : pow2 (-1075) ≤ pow2 (-75) * res := by
    have e : pow2 (-1075) = pow2 (-75) * pow2 (-1000) := by
      rw [← pow2_add]
      rfl
    rw [e]
    exact mul_le_mul_of_nonneg_left hres (le_of_lt (pow2_pos _))
  have hbig : 4 * pow2 1000 ≤ pow2 1023 := by
    have h1 : pow2 1002 = 4 * pow2 1000 := by
      have := pow2_add 2 1000
      rw [show (2 : ℤ) + 1000 = 1002 from rfl] at this
      rw [this, pow2_eq 2]
      norm_num
    rw [← h1]
    exact pow2_le_pow2 (by norm_num)
  have h1000 : 1042 ≤ pow2 1000 := by
    have h1 : pow2 11 = 2048 := by
      rw [pow2_eq]
      norm_num
    have := pow2_le_pow2 (show (11 : ℤ) ≤ 1000 by norm_num)
    linarith
  rw [h45, hε]
  rw [hε] at hθε
  generalize hηdef : pow2 (-1075) = η at *
  generalize pow2 (-75) = θ at *
  -- the rounded difference
  have hs₀ : 0 ≤ v - o := by linarith
  have hsabs : |v - o| < pow2 1023 := by
    have := abs_sub v o
    linarith [pow2_pos 1000]
  obtain ⟨eS, bS⟩ := round64_error (v - o) hsabs
  rw [hε, hηdef, abs_of_nonneg hs₀] at bS
  have hS₀ := roundVal_nonneg (v - o) hs₀
  rw [← sub_fin] at eS
  generalize roundVal (v - o) = S at *
  -- the exact and the rounded quotient
  have ht₀ : 0 ≤ (v - o) / res := div_nonneg hs₀ (le_of_lt hres₀)
  have ht₁ : (v - o) / res ≤ 100 := by
    rw [div_le_iff₀ hres₀]
    linarith
  have hq₀ : 0 ≤ S / res := div_nonneg hS₀ (le_of_lt hres₀)
  have hqt : |S / res - (v - o) / res| ≤ 100 / 9007199254740992 + θ := by
    rw [← sub_div, abs_div, abs_of_pos hres₀, div_le_iff₀ hres₀]
    have h1 : 1 / 9007199254740992 * (v - o) ≤ 100 / 9007199254740992 * res := by linarith
    have h2 : (100 / 9007199254740992 + θ) * res = 100 / 9007199254740992 * res + θ * res := by
      ring
    linarith
  obtain ⟨hqt₁, hqt₂⟩ := abs_le.mp hqt
  have hq101 : S / res ≤ 101 := by linarith
  have hqabs : |S / res| < pow2 1023 := by
    rw [abs_of_nonneg hq₀]
    linarith
  obtain ⟨eC, bC⟩ := round64_error (S / res) hqabs
  rw [hε, hηdef, abs_of_nonneg hq₀] at bC
  have hC₀ := roundVal_nonneg (S / res) hq₀
  rw [← div_fin _ _ (ne_of_gt hres₀), ← eS] at eC
  obtain ⟨bC₁, bC₂⟩ := abs_le.mp bC
  generalize roundVal (S / res) = cf at *
  rw [eC]
  rcases lt_or_le cf 100 with hlt | hge
  · obtain ⟨bl, bu⟩ := baseIndex_bracket cf hC₀ hlt
    have hd₀ : 0 ≤ cf - (DemInterpolate.baseIndex cf : ℚ) := by linarith
    have hd₁ : cf - (DemInterpolate.baseIndex cf : ℚ) ≤ 1 := by linarith
    have hdabs : |cf - (DemInterpolate.baseIndex cf : ℚ)| < pow2 1023 := by
      rw [abs_of_nonneg hd₀]
      linarith
    obtain ⟨eW, bW⟩ := round64_error _ hdabs
    rw [hε, hηdef, abs_of_nonneg hd₀] at bW
    obtain ⟨w₀, w₁⟩ := roundVal_unit _ hd₀ hd₁
    rw [← sub_fin] at eW
    have hw := weight_of_sub_fin (fin cf) _ eW
    rw [min_eq_right w₁, max_eq_right w₀] at hw
    obtain ⟨bW₁, bW₂⟩ := abs_le.mp bW
    refine ⟨_, hw, w₀, w₁, ?_⟩
    show |(DemInterpolate.baseIndex cf : ℚ) + roundVal (cf - (DemInterpolate.baseIndex cf : ℚ))
      - (v - o) / res| ≤ _
    rw [abs_le]
    constructor <;> linarith
  · obtain ⟨hb, hw⟩ := axis_high64 (fin cf) (by rw [le_fin]; exact decide_eq_true hge)
    refine ⟨1, hw, by norm_num, le_rfl, ?_⟩
    rw [hb, abs_le]
    push_cast
    constructor <;> linarith

/-! ### Agreement of the two readings where rounding plays no part -/

/-- With a positive resolution the binary64 routine returns a value. -/
theorem binary64_total (demData : struct0_T) (x y : ℚ) (hres : 0 < demData.resolution) :
    ∃ v, demInterpolate demData x y = .ok v :=
  ⟨_, demInterpolate_eq64 demData x y hres⟩

/-- The binary64 routine reads only `X[0]`, `Y[0]`, `resolution` and `Z`. -/
theorem binary64_same_reads (d₁ d₂ : struct0_T) (x y : ℚ)
    (hX : d₁.X 0 = d₂.X 0) (hY : d₁.Y 0 = d₂.Y 0) (hres : d₁.resolution = d₂.resolution)
    (hZ : d₁.Z = d₂.Z) :
    demInterpolate d₁ x y = demInterpolate d₂ x y := by
  unfold demInterpolate gridPosition readZ
  rw [hX, hY, hres, hZ]

/-- On the example grid every binary64 operation is exact: the three example
queries return `100`, `25` and `0`. -/
theorem binary64_example_values :
    demInterpolate peakGrid 10 10 = .ok (fin 100) ∧
      demInterpolate peakGrid 5 5 = .ok (fin 25) ∧
      demInterpolate peakGrid (-50) (-50) = .ok (fin 0) := by
  refine ⟨by decide!, by decide!, by decide!⟩

end Binary64

/-! ## The stated properties -/

namespace Binary64
open real_T

/-- Claim C1, amended: for a grid with positive resolution and any query the
routine returns the bilinear blend of the four selected corners evaluated in
binary64 arithmetic, every difference, quotient, product and sum being rounded
to nearest: `colF = fl(fl(x - X[0]) / resolution)`, the base index is its
floor clamped to `[0, 99]`, the weight is `fl(colF - col0)` clamped to
`[0, 1]`, and the sum is taken in the order `((t00 + t10) + t01) + t11`;
`elevations[r, c]` is read from `Z` at offset `r + 101 * c`. -/
theorem binary64_refines_elevationAt (demData : struct0_T) (x y : ℚ)
    (hres : 0 < demData.resolution) :
    demInterpolate demData x y = .ok (elevationAt demData x y) ∧
    elevationAt demData x y =
      add (add (add
        (mul (mul (fin (elevations demData (baseIndex (rowF demData y))
            (baseIndex (colF demData x))))
          (sub (fin 1) (weight (colF demData x)))) (sub (fin 1) (weight (rowF demData y))))
        (mul (mul (fin (elevations demData (baseIndex (rowF demData y))
            (baseIndex (colF demData x) + 1)))
          (weight (colF demData x))) (sub (fin 1) (weight (rowF demData y)))))
        (mul (mul (fin (elevations demData (baseIndex (rowF demData y) + 1)
            (baseIndex (colF demData x))))
          (sub (fin 1) (weight (colF demData x)))) (weight (rowF demData y))))
        (mul (mul (fin (elevations demData (baseIndex (rowF demData y) + 1)
            (baseIndex (colF demData x) + 1)))
          (weight (colF demData x))) (weight (rowF demData y))) ∧
    colF demData x = div (sub (fin x) (fin (demData.X 0))) (fin demData.resolution) ∧
    rowF demData y = div (sub (fin y) (fin (demData.Y 0))) (fin demData.resolution) ∧
    (∀ (r c : ℕ) (h : r + 101 * c < 10201), elevations demData r c = demData.Z ⟨r + 101 * c, h⟩) :=
  ⟨demInterpolate_eq64 demData x y hres, rfl, rfl, rfl,
    fun r c h => by unfold elevations; rw [dif_pos h]⟩

theorem binary64_refines_elevationAt_witness :
    (0 : ℚ) < rampGrid.resolution ∧
      demInterpolate rampGrid 500123 5400456 = .ok (elevationAt rampGrid 500123 5400456) :=
  ⟨rampGrid_resolution,
    (binary64_refines_elevationAt rampGrid 500123 5400456 rampGrid_resolution).1⟩

/-- Claim C1 as stated fails: on the grid `rampGrid` (positive resolution,
binary64 entries) the query `(500123, 5400456)` returns the binary64 value
`2832122050825421 / 2199023255552`, while the exact bilinear blend of the
claim is `12879 / 10`. -/
theorem exact_blend_counterexample :
    (0 : ℚ) < rampGrid.resolution ∧ isBinary64 500123 ∧ isBinary64 5400456 ∧
      demInterpolate rampGrid 500123 5400456 = .ok (fin (2832122050825421 / 2199023255552)) ∧
      DemInterpolate.elevationAt rampGrid 500123 5400456 = 12879 / 10 ∧
      demInterpolate rampGrid 500123 5400456
        ≠ .ok (fin (DemInterpolate.elevationAt rampGrid 500123 5400456)) := by
  refine ⟨rampGrid_resolution, by unfold isBinary64; decide!, by unfold isBinary64; decide!,
    by decide!, by decide!, by decide!⟩

end Binary64

/-- Claim C2: for a grid with positive resolution and any query the routine
returns a value and raises no error: the clamped base indices `i`, `j` are
integers in `[0, 99]`, the integer checks on `i+1`, `i+2`, `j+1`, `j+2` pass,
and the four offsets `j + 101*i`, `j + 101*(i+1)`, `j+1 + 101*i`,
`j+1 + 101*(i+1)` lie in `[0, 10200]`, so every read of `Z` succeeds. -/
theorem demInterpolate_total (demData : struct0_T) (x y : ℚ)
    (_hres : 0 < demData.resolution) :
    (∃ z, demInterpolate demData x y = .ok z) ∧
    ∃ i j : ℕ, clampedFloor (colF demData x) = (i : ℚ) ∧ clampedFloor (rowF demData y) = (j : ℚ) ∧
      i ≤ 99 ∧ j ≤ 99 ∧
      emlrtIntegerCheck ((j : ℚ) + 1) = .ok () ∧ emlrtIntegerCheck ((i : ℚ) + 1) = .ok () ∧
      emlrtIntegerCheck ((j : ℚ) + 2) = .ok () ∧ emlrtIntegerCheck ((i : ℚ) + 2) = .ok () ∧
      j + 101 * i ≤ 10200 ∧ j + 101 * (i + 1) ≤ 10200 ∧
      (j + 1) + 101 * i ≤ 10200 ∧ (j + 1) + 101 * (i + 1) ≤ 10200 ∧
      (∃ v, readZ demData ((j : ℤ) + 101 * (i : ℤ)) = .ok v) ∧
      (∃ v, readZ demData ((j : ℤ) + 101 * ((i : ℤ) + 1)) = .ok v) ∧
      (∃ v, readZ demData (((j : ℤ) + 1) + 101 * (i : ℤ)) = .ok v) ∧
      (∃ v, readZ demData (((j : ℤ) + 1) + 101 * ((i : ℤ) + 1)) = .ok v) := by
  refine ⟨⟨_, demInterpolate_eq demData x y⟩, baseIndex (colF demData x),
    baseIndex (rowF demData y), clampedFloor_eq _, clampedFloor_eq _, ?_⟩
  have hi := baseIndex_le (colF demData x)
  have hj := baseIndex_le (rowF demData y)
  generalize baseIndex (colF demData x) = i at hi ⊢
  generalize baseIndex (rowF demData y) = j at hj ⊢
  have cj1 := emlrtIntegerCheck_natCast_add j 1 (by omega)
  have ci1 := emlrtIntegerCheck_natCast_add i 1 (by omega)
  have cj2 := emlrtIntegerCheck_natCast_add j 2 (by omega)
  have ci2 := emlrtIntegerCheck_natCast_add i 2 (by omega)
  have r11 := readZ_eq demData j i (by omega) (by omega)
  have r21 := readZ_eq demData j (i + 1) (by omega) (by omega)
  have r12 := readZ_eq demData (j + 1) i (by omega) (by omega)
  have r22 := readZ_eq demData (j + 1) (i + 1) (by omega) (by omega)
  push_cast at cj1 ci1 cj2 ci2 r11 r21 r12 r22
  exact ⟨hi, hj, cj1, ci1, cj2, ci2, by omega, by omega, by omega, by omega,
    ⟨_, r11⟩, ⟨_, r21⟩, ⟨_, r12⟩, ⟨_, r22⟩⟩

theorem demInterpolate_total_witness :
    (0 : ℚ) < rampGrid.resolution ∧ ∃ z, demInterpolate rampGrid (-1000000) 99999999 = .ok z :=
  ⟨rampGrid_resolution,
    (demInterpolate_total rampGrid (-1000000) 99999999 rampGrid_resolution).1⟩

namespace Binary64
open real_T

/-- Claim C3, amended (convexity bound): for a grid with positive resolution
whose elevations have magnitude at most `K ≤ 2 ^ 1000`, and for any query,
inside or outside the footprint, the routine returns a finite value that lies
in `[min - t, max + t]`, where `min` and `max` are taken over the four corner
elevations selected by the query and `t = 2 ^ (-47) * K + 2 ^ (-1071)` bounds
the rounding error of the eleven binary64 operations of the blend. -/
theorem binary64_convex (demData : struct0_T) (x y K : ℚ)
    (hres : 0 < demData.resolution) (hK : K ≤ pow2 1000) (hZ : ∀ k, |demData.Z k| ≤ K) :
    ∃ v, demInterpolate demData x y = .ok (fin v) ∧
      min (min (elevations demData (baseIndex (rowF demData y)) (baseIndex (colF demData x)))
            (elevations demData (baseIndex (rowF demData y)) (baseIndex (colF demData x) + 1)))
          (min (elevations demData (baseIndex (rowF demData y) + 1) (baseIndex (colF demData x)))
            (elevations demData (baseIndex (rowF demData y) + 1)
              (baseIndex (colF demData x) + 1)))
        - (pow2 (-47) * K + pow2 (-1071)) ≤ v ∧
      v ≤ max (max (elevations demData (baseIndex (rowF demData y)) (baseIndex (colF demData x)))
            (elevations demData (baseIndex (rowF demData y)) (baseIndex (colF demData x) + 1)))
          (max (elevations demData (baseIndex (rowF demData y) + 1) (baseIndex (colF demData x)))
            (elevations demData (baseIndex (rowF demData y) + 1)
              (baseIndex (colF demData x) + 1)))
        + (pow2 (-47) * K + pow2 (-1071)) := by
  have hb := abs_elevations_le demData K hZ
  obtain ⟨wx, ewx, wx₀, wx₁⟩ := weight_unit (colF demData x)
    (gridCoord_ne_nan x (demData.X 0) _ hres)
  obtain ⟨wy, ewy, wy₀, wy₁⟩ := weight_unit (rowF demData y)
    (gridCoord_ne_nan y (demData.Y 0) _ hres)
  obtain ⟨v, ev, bv⟩ := blend_tolerance _ _ _ _ wx wy K hK
    (hb (baseIndex (rowF demData y)) (baseIndex (colF demData x)))
    (hb (baseIndex (rowF demData y)) (baseIndex (colF demData x) + 1))
    (hb (baseIndex (rowF demData y) + 1) (baseIndex (colF demData x)))
    (hb (baseIndex (rowF demData y) + 1) (baseIndex (colF demData x) + 1)) wx₀ wx₁ wy₀ wy₁
  obtain ⟨lo, hi⟩ := DemInterpolate.blend_mem
    (elevations demData (baseIndex (rowF demData y)) (baseIndex (colF demData x)))
    (elevations demData (baseIndex (rowF demData y)) (baseIndex (colF demData x) + 1))
    (elevations demData (baseIndex (rowF demData y) + 1) (baseIndex (colF demData x)))
    (elevations demData (baseIndex (rowF demData y) + 1) (baseIndex (colF demData x) + 1))
    wx wy _ _ wx₀ wx₁ wy₀ wy₁
    (le_trans (min_le_left _ _) (min_le_left _ _))
    (le_trans (min_le_left _ _) (min_le_right _ _))
    (le_trans (min_le_right _ _) (min_le_left _ _))
    (le_trans (min_le_right _ _) (min_le_right _ _))
    (le_trans (le_max_left _ _) (le_max_left _ _))
    (le_trans (le_max_right _ _) (le_max_left _ _))
    (le_trans (le_max_left _ _) (le_max_right _ _))
    (le_trans (le_max_right _ _) (le_max_right _ _))
  obtain ⟨b₁, b₂⟩ := abs_le.mp bv
  refine ⟨v, ?_, by linarith, by linarith⟩
  rw [demInterpolate_eq64 _ _ _ hres, elevationAt_of64 demData x y _ _ (fin wx) (fin wy) rfl rfl ewx ewy, ev]

theorem binary64_convex_witness :
    (0 : ℚ) < rampGrid.resolution ∧ (10200 : ℚ) ≤ pow2 1000 ∧
      (∀ k, |rampGrid.Z k| ≤ 10200) ∧
      ∃ v, demInterpolate rampGrid 500123 5400456 = .ok (fin v) ∧
        min (min (elevations rampGrid (baseIndex (rowF rampGrid 5400456))
              (baseIndex (colF rampGrid 500123)))
            (elevations rampGrid (baseIndex (rowF rampGrid 5400456))
              (baseIndex (colF rampGrid 500123) + 1)))
          (min (elevations rampGrid (baseIndex (rowF rampGrid 5400456) + 1)
              (baseIndex (colF rampGrid 500123)))
            (elevations rampGrid (baseIndex (rowF rampGrid 5400456) + 1)
              (baseIndex (colF rampGrid 500123) + 1)))
          - (pow2 (-47) * 10200 + pow2 (-1071)) ≤ v ∧
        v ≤ max (max (elevations rampGrid (baseIndex (rowF rampGrid 5400456))
              (baseIndex (colF rampGrid 500123)))
            (elevations rampGrid (baseIndex (rowF rampGrid 5400456))
              (baseIndex (colF rampGrid 500123) + 1)))
          (max (elevations rampGrid (baseIndex (rowF rampGrid 5400456) + 1)
              (baseIndex (colF rampGrid 500123)))
            (elevations rampGrid (baseIndex (rowF rampGrid 5400456) + 1)
              (baseIndex (colF rampGrid 500123) + 1)))
          + (pow2 (-47) * 10200 + pow2 (-1071)) :=
  ⟨rampGrid_resolution, small_le_pow2 10200 (by norm_num), rampBuffer_bound,
    binary64_convex rampGrid 500123 5400456 10200 rampGrid_resolution
      (small_le_pow2 10200 (by norm_num)) rampBuffer_bound⟩

/-- Claim C3 as stated fails: on the constant grid `flatGrid 37` (origin
`(3, -4)`, spacing `1/2`) the binary64 query nearest `(3.01, -3.99)` selects
the cell with base indices `(0, 0)`, whose four corners are all `37`, and
returns `5207287069147137 / 140737488355328 > 37`. -/
theorem convex_counterexample :
    (0 : ℚ) < (flatGrid 37).resolution ∧
      isBinary64 (1694479359798149 / 562949953421312) ∧
      isBinary64 (-2246170314151035 / 562949953421312) ∧
      demInterpolate (flatGrid 37) (1694479359798149 / 562949953421312)
        (-2246170314151035 / 562949953421312)
        = .ok (fin (5207287069147137 / 140737488355328)) ∧
      max (max (elevations (flatGrid 37)
              (baseIndex (rowF (flatGrid 37) (-2246170314151035 / 562949953421312)))
              (baseIndex (colF (flatGrid 37) (1694479359798149 / 562949953421312))))
            (elevations (flatGrid 37)
              (baseIndex (rowF (flatGrid 37) (-2246170314151035 / 562949953421312)))
              (baseIndex (colF (flatGrid 37) (1694479359798149 / 562949953421312)) + 1)))
          (max (elevations (flatGrid 37)
              (baseIndex (rowF (flatGrid 37) (-2246170314151035 / 562949953421312)) + 1)
              (baseIndex (colF (flatGrid 37) (1694479359798149 / 562949953421312))))
            (elevations (flatGrid 37)
              (baseIndex (rowF (flatGrid 37) (-2246170314151035 / 562949953421312)) + 1)
              (baseIndex (colF (flatGrid 37) (1694479359798149 / 562949953421312)) + 1)))
        < 5207287069147137 / 140737488355328 := by
  refine ⟨flatGrid_resolution 37, by unfold isBinary64; decide!, by unfold isBinary64; decide!,
    by decide!, by decide!⟩

/-- Claim C6, amended (constant grid reproduction): for a grid with positive
resolution whose elevation is the same constant `k` at every node, with
`|k| ≤ 2 ^ 1000`, every query returns a finite value within
`2 ^ (-47) * |k| + 2 ^ (-1071)` of `k`. -/
theorem binary64_const (demData : struct0_T) (k x y : ℚ)
    (hres : 0 < demData.resolution) (hk : |k| ≤ pow2 1000) (hZ : ∀ idx, demData.Z idx = k) :
    ∃ v, demInterpolate demData x y = .ok (fin v) ∧
      |v - k| ≤ pow2 (-47) * |k| + pow2 (-1071) := by
  have hc := baseIndex_le64 (colF demData x)
  have hr := baseIndex_le64 (rowF demData y)
  obtain ⟨wx, ewx, wx₀, wx₁⟩ := weight_unit (colF demData x)
    (gridCoord_ne_nan x (demData.X 0) _ hres)
  obtain ⟨wy, ewy, wy₀, wy₁⟩ := weight_unit (rowF demData y)
    (gridCoord_ne_nan y (demData.Y 0) _ hres)
  obtain ⟨v, ev, bv⟩ := blend_tolerance k k k k wx wy |k| hk le_rfl le_rfl le_rfl le_rfl
    wx₀ wx₁ wy₀ wy₁
  have hexact : DemInterpolate.blend k k k k wx wy = k := by
    unfold DemInterpolate.blend
    ring
  rw [hexact] at bv
  refine ⟨v, ?_, bv⟩
  rw [demInterpolate_eq64 _ _ _ hres, elevationAt_of64 demData x y _ _ (fin wx) (fin wy) rfl rfl ewx ewy,
    DemInterpolate.elevations_const demData k hZ _ _ (Nat.le_succ_of_le hr) (Nat.le_succ_of_le hc),
    DemInterpolate.elevations_const demData k hZ _ _ (Nat.le_succ_of_le hr) (Nat.succ_le_succ hc),
    DemInterpolate.elevations_const demData k hZ _ _ (Nat.succ_le_succ hr) (Nat.le_succ_of_le hc),
    DemInterpolate.elevations_const demData k hZ _ _ (Nat.succ_le_succ hr) (Nat.succ_le_succ hc),
    ev]

theorem binary64_const_witness :
    (0 : ℚ) < (flatGrid 37).resolution ∧ |(37 : ℚ)| ≤ pow2 1000 ∧
      (∀ idx, (flatGrid 37).Z idx = 37) ∧
      ∃ v, demInterpolate (flatGrid 37) (1694479359798149 / 562949953421312)
          (-2246170314151035 / 562949953421312) = .ok (fin v) ∧
        |v - 37| ≤ pow2 (-47) * |(37 : ℚ)| + pow2 (-1071) :=
  ⟨flatGrid_resolution 37, small_le_pow2 37 (by norm_num), fun _ => rfl,
    binary64_const (flatGrid 37) 37 (1694479359798149 / 562949953421312)
      (-2246170314151035 / 562949953421312) (flatGrid_resolution 37)
      (small_le_pow2 37 (by norm_num)) (fun _ => rfl)⟩

/-- Claim C6 as stated fails: on the constant grid `flatGrid 37` (origin
`(3, -4)`, spacing `1/2`) the binary64 query nearest `(3.01, -3.99)` returns
`5207287069147137 / 140737488355328`, which is not `37`. -/
theorem const_counterexample :
    (0 : ℚ) < (flatGrid 37).resolution ∧ (∀ idx, (flatGrid 37).Z idx = 37) ∧
      isBinary64 (1694479359798149 / 562949953421312) ∧
      isBinary64 (-2246170314151035 / 562949953421312) ∧
      demInterpolate (flatGrid 37) (1694479359798149 / 562949953421312)
        (-2246170314151035 / 562949953421312)
        = .ok (fin (5207287069147137 / 140737488355328)) ∧
      demInterpolate (flatGrid 37) (1694479359798149 / 562949953421312)
        (-2246170314151035 / 562949953421312) ≠ .ok (fin 37) := by
  refine ⟨flatGrid_resolution 37, fun _ => rfl, by unfold isBinary64; decide!,
    by unfold isBinary64; decide!, by decide!, by decide!⟩

end Binary64

/-- Claim C8 (concrete example): for a grid with origin `(0, 0)` and
resolution `10` whose elevation is `100` at node `(1, 1)` and `0` at nodes
`(0, 0)`, `(0, 1)` and `(1, 0)`, the query `(10, 10)` returns `100`, the query
`(5, 5)` returns `25` and the query `(-50, -50)` returns `elevations[0, 0] = 0`. -/
theorem demInterpolate_example (demData : struct0_T)
    (hX : demData.X 0 = 0) (hY : demData.Y 0 = 0) (hres : demData.resolution = 10)
    (h00 : elevations demData 0 0 = 0) (h01 : elevations demData 0 1 = 0)
    (h10 : elevations demData 1 0 = 0) (h11 : elevations demData 1 1 = 100) :
    demInterpolate demData 10 10 = .ok 100 ∧ demInterpolate demData 5 5 = .ok 25 ∧
      demInterpolate demData (-50) (-50) = .ok (elevations demData 0 0) ∧
      elevations demData 0 0 = 0 := by
  have c10 : colF demData 10 = 1 := by
    unfold colF
    rw [hX, hres]
    norm_num
  have r10 : rowF demData 10 = 1 := by
    unfold rowF
    rw [hY, hres]
    norm_num
  have c5 : colF demData 5 = 1 / 2 := by
    unfold colF
    rw [hX, hres]
    norm_num
  have r5 : rowF demData 5 = 1 / 2 := by
    unfold rowF
    rw [hY, hres]
    norm_num
  have cm : colF demData (-50) = -5 := by
    unfold colF
    rw [hX, hres]
    norm_num
  have rm : rowF demData (-50) = -5 := by
    unfold rowF
    rw [hY, hres]
    norm_num
  have b1 : baseIndex (1 : ℚ) = 1 := baseIndex_of_mem 1 1 (by decide) (by norm_num) (by norm_num)
  have w1 : weight (1 : ℚ) = 0 := by
    rw [weight_of_mem 1 1 (by decide) (by norm_num) (by norm_num)]
    norm_num
  have bh : baseIndex (1 / 2 : ℚ) = 0 :=
    baseIndex_of_mem (1 / 2) 0 (by decide) (by norm_num) (by norm_num)
  have wh : weight (1 / 2 : ℚ) = 1 / 2 := by
    rw [weight_of_mem (1 / 2) 0 (by decide) (by norm_num) (by norm_num)]
    norm_num
  have bm : baseIndex (-5 : ℚ) = 0 := baseIndex_of_nonpos _ (by norm_num)
  have wm : weight (-5 : ℚ) = 0 := weight_of_nonpos _ (by norm_num)
  refine ⟨?_, ?_, ?_, h00⟩
  · rw [demInterpolate_eq, elevationAt_of demData 10 10 1 1 0 0 (by rw [c10, b1])
      (by rw [r10, b1]) (by rw [c10, w1]) (by rw [r10, w1]), h11]
    unfold blend
    congr 1
    ring
  · rw [demInterpolate_eq, elevationAt_of demData 5 5 0 0 (1 / 2) (1 / 2) (by rw [c5, bh])
      (by rw [r5, bh]) (by rw [c5, wh]) (by rw [r5, wh]), h00, h01, h10, h11]
    unfold blend
    congr 1
    norm_num
  · rw [demInterpolate_eq, elevationAt_of demData (-50) (-50) 0 0 0 0 (by rw [cm, bm])
      (by rw [rm, bm]) (by rw [cm, wm]) (by rw [rm, wm])]
    unfold blend
    congr 1
    ring

theorem demInterpolate_example_witness :
    demInterpolate peakGrid 10 10 = .ok 100 ∧ demInterpolate peakGrid 5 5 = .ok 25 ∧
      demInterpolate peakGrid (-50) (-50) = .ok (elevations peakGrid 0 0) ∧
      elevations peakGrid 0 0 = 0 :=
  demInterpolate_example peakGrid rfl rfl rfl rfl rfl rfl rfl

/-- Claim C9 (metadata is not consumed): two grids that agree on `X[0]`,
`Y[0]`, `resolution` and the buffer `Z` give the same result for every query,
whatever their other fields and the other entries of `X` and `Y` are. -/
theorem demInterpolate_ignores_metadata (d₁ d₂ : struct0_T) (x y : ℚ)
    (hX : d₁.X 0 = d₂.X 0) (hY : d₁.Y 0 = d₂.Y 0) (hres : d₁.resolution = d₂.resolution)
    (hZ : d₁.Z = d₂.Z) :
    demInterpolate d₁ x y = demInterpolate d₂ x y := by
  rw [demInterpolate_eq, demInterpolate_eq]
  unfold elevationAt colF rowF elevations
  rw [hX, hY, hres, hZ]

theorem demInterpolate_ignores_metadata_witness :
    peakGrid.xMin ≠ peakGridAlt.xMin ∧ peakGrid.X 1 ≠ peakGridAlt.X 1 ∧
      peakGrid.type 0 ≠ peakGridAlt.type 0 ∧
      demInterpolate peakGrid 5 5 = demInterpolate peakGridAlt 5 5 :=
  ⟨by show (0 : ℚ) ≠ 7; norm_num, by show (0 : ℚ) ≠ 7; norm_num, by decide,
    demInterpolate_ignores_metadata peakGrid peakGridAlt 5 5 rfl rfl rfl rfl⟩

namespace Binary64
open real_T

/-- Claim C10, amended (flat extrapolation): for a grid with positive
resolution, a coordinate at or below the origin of its axis gives base index
`0` and weight exactly `0`, and a coordinate whose computed grid coordinate is
at least `100` gives base index `99` and weight exactly `1`; hence the result
is unchanged when a coordinate is replaced by another one of the same such
region, in particular when the query is clamped from below to
`(max x X[0], max y Y[0])`, while the other axis is interpolated as before. -/
theorem binary64_flat_extrapolation (demData : struct0_T) (x y : ℚ)
    (hres : 0 < demData.resolution) :
    (x ≤ demData.X 0 →
      (gridPosition demData x y).1 = fin 0 ∧ (gridPosition demData x y).2.2.1 = fin 0) ∧
    (le (fin 100) (colF demData x) = true →
      (gridPosition demData x y).1 = fin 99 ∧ (gridPosition demData x y).2.2.1 = fin 1) ∧
    (y ≤ demData.Y 0 →
      (gridPosition demData x y).2.1 = fin 0 ∧ (gridPosition demData x y).2.2.2 = fin 0) ∧
    (le (fin 100) (rowF demData y) = true →
      (gridPosition demData x y).2.1 = fin 99 ∧ (gridPosition demData x y).2.2.2 = fin 1) ∧
    (∀ x' y' : ℚ,
      (x' = x ∨ (x ≤ demData.X 0 ∧ x' ≤ demData.X 0) ∨
        (le (fin 100) (colF demData x) = true ∧ le (fin 100) (colF demData x') = true)) →
      (y' = y ∨ (y ≤ demData.Y 0 ∧ y' ≤ demData.Y 0) ∨
        (le (fin 100) (rowF demData y) = true ∧ le (fin 100) (rowF demData y') = true)) →
      demInterpolate demData x y = demInterpolate demData x' y') ∧
    demInterpolate demData x y = demInterpolate demData (max x (demData.X 0)) (max y (demData.Y 0)) := by
  have hg := gridPosition_eq demData x y hres
  have hlowx : ∀ v : ℚ, v ≤ demData.X 0 →
      baseIndex (colF demData v) = 0 ∧ weight (colF demData v) = fin 0 :=
    fun v hv => axis_low64 _ (gridCoord_low v (demData.X 0) _ hres hv)
  have hlowy : ∀ v : ℚ, v ≤ demData.Y 0 →
      baseIndex (rowF demData v) = 0 ∧ weight (rowF demData v) = fin 0 :=
    fun v hv => axis_low64 _ (gridCoord_low v (demData.Y 0) _ hres hv)
  have hsamex : ∀ x' : ℚ, (x' = x ∨ (x ≤ demData.X 0 ∧ x' ≤ demData.X 0) ∨
      (le (fin 100) (colF demData x) = true ∧ le (fin 100) (colF demData x') = true)) →
      baseIndex (colF demData x) = baseIndex (colF demData x') ∧
        weight (colF demData x) = weight (colF demData x') := by
    intro x' h
    rcases h with h | ⟨h₁, h₂⟩ | ⟨h₁, h₂⟩
    · rw [h]
      exact ⟨rfl, rfl⟩
    · rw [(hlowx x h₁).1, (hlowx x h₁).2, (hlowx x' h₂).1, (hlowx x' h₂).2]
      exact ⟨rfl, rfl⟩
    · rw [(axis_high64 _ h₁).1, (axis_high64 _ h₁).2, (axis_high64 _ h₂).1,
        (axis_high64 _ h₂).2]
      exact ⟨rfl, rfl⟩
  have hsamey : ∀ y' : ℚ, (y' = y ∨ (y ≤ demData.Y 0 ∧ y' ≤ demData.Y 0) ∨
      (le (fin 100) (rowF demData y) = true ∧ le (fin 100) (rowF demData y') = true)) →
      baseIndex (rowF demData y) = baseIndex (rowF demData y') ∧
        weight (rowF demData y) = weight (rowF demData y') := by
    intro y' h
    rcases h with h | ⟨h₁, h₂⟩ | ⟨h₁, h₂⟩
    · rw [h]
      exact ⟨rfl, rfl⟩
    · rw [(hlowy y h₁).1, (hlowy y h₁).2, (hlowy y' h₂).1, (hlowy y' h₂).2]
      exact ⟨rfl, rfl⟩
    · rw [(axis_high64 _ h₁).1, (axis_high64 _ h₁).2, (axis_high64 _ h₂).1,
        (axis_high64 _ h₂).2]
      exact ⟨rfl, rfl⟩
  have hsame : ∀ x' y' : ℚ,
      (x' = x ∨ (x ≤ demData.X 0 ∧ x' ≤ demData.X 0) ∨
        (le (fin 100) (colF demData x) = true ∧ le (fin 100) (colF demData x') = true)) →
      (y' = y ∨ (y ≤ demData.Y 0 ∧ y' ≤ demData.Y 0) ∨
        (le (fin 100) (rowF demData y) = true ∧ le (fin 100) (rowF demData y') = true)) →
      demInterpolate demData x y = demInterpolate demData x' y' := by
    intro x' y' hx hy
    obtain ⟨bx, wx⟩ := hsamex x' hx
    obtain ⟨hby, wy⟩ := hsamey y' hy
    rw [demInterpolate_eq64 _ _ _ hres, demInterpolate_eq64 _ _ _ hres]
    unfold elevationAt
    rw [bx, wx, hby, wy]
  refine ⟨?_, ?_, ?_, ?_, hsame, ?_⟩
  · intro h
    rw [hg]
    exact ⟨by rw [(hlowx x h).1]; norm_num, (hlowx x h).2⟩
  · intro h
    rw [hg]
    exact ⟨by rw [(axis_high64 _ h).1]; norm_num, (axis_high64 _ h).2⟩
  · intro h
    rw [hg]
    exact ⟨by rw [(hlowy y h).1]; norm_num, (hlowy y h).2⟩
  · intro h
    rw [hg]
    exact ⟨by rw [(axis_high64 _ h).1]; norm_num, (axis_high64 _ h).2⟩
  · apply hsame
    · rcases le_total x (demData.X 0) with h | h
      · right
        left
        exact ⟨h, by rw [max_eq_right h]⟩
      · left
        exact max_eq_left h
    · rcases le_total y (demData.Y 0) with h | h
      · right
        left
        exact ⟨h, by rw [max_eq_right h]⟩
      · left
        exact max_eq_left h

theorem binary64_flat_extrapolation_witness :
    (0 : ℚ) < skewGridB.resolution ∧
      (gridPosition skewGridB (-1000) 7).1 = fin 0 ∧
      (gridPosition skewGridB (-1000) 7).2.2.1 = fin 0 ∧
      demInterpolate skewGridB (-1000) 7
        = demInterpolate skewGridB (max (-1000) (skewGridB.X 0)) (max 7 (skewGridB.Y 0)) :=
  ⟨by decide!,
    ((binary64_flat_extrapolation skewGridB (-1000) 7 (by decide!)).1 (by decide!)).1,
    ((binary64_flat_extrapolation skewGridB (-1000) 7 (by decide!)).1 (by decide!)).2,
    (binary64_flat_extrapolation skewGridB (-1000) 7 (by decide!)).2.2.2.2.2⟩

/-- Claim C10 as stated fails: on the grid `skewGridB` the query
`(1000, 1000)` returns `10200`, but the query clamped to the footprint,
`x = y = X[0] + 100*resolution` (a binary64 value), returns
`5607509301657599 / 549755813888`; its weight on each axis is
`70368744177663 / 70368744177664`, not `1`. -/
theorem flat_extrapolation_counterexample :
    (0 : ℚ) < skewGridB.resolution ∧ isBinary64 skewGridB.resolution ∧
      clampCoord (skewGridB.X 0) (skewGridB.X 0 + 100 * skewGridB.resolution) 1000
        = 1501199875790157 / 4503599627370496 ∧
      isBinary64 (1501199875790157 / 4503599627370496) ∧
      demInterpolate skewGridB 1000 1000 = .ok (fin 10200) ∧
      demInterpolate skewGridB
        (clampCoord (skewGridB.X 0) (skewGridB.X 0 + 100 * skewGridB.resolution) 1000)
        (clampCoord (skewGridB.Y 0) (skewGridB.Y 0 + 100 * skewGridB.resolution) 1000)
        = .ok (fin (5607509301657599 / 549755813888)) ∧
      (gridPosition skewGridB
        (clampCoord (skewGridB.X 0) (skewGridB.X 0 + 100 * skewGridB.resolution) 1000)
        (clampCoord (skewGridB.Y 0) (skewGridB.Y 0 + 100 * skewGridB.resolution) 1000)).2.2.1
        = fin (70368744177663 / 70368744177664) ∧
      demInterpolate skewGridB 1000 1000 ≠
        demInterpolate skewGridB
          (clampCoord (skewGridB.X 0) (skewGridB.X 0 + 100 * skewGridB.resolution) 1000)
          (clampCoord (skewGridB.Y 0) (skewGridB.Y 0 + 100 * skewGridB.resolution) 1000) := by
  refine ⟨by decide!, by unfold isBinary64; decide!, by decide!, by unfold isBinary64; decide!,
    by decide!, by decide!, by decide!, by decide!⟩

/-- Claim C12, amended (plane reproduction): for a grid whose elevations are
`elevations[r, c] = a + b*c + d*r` for all `r, c ≤ 100`, with
`K = |a| + 100*|b| + 100*|d| ≤ 2 ^ 1000`, a resolution of at least
`2 ^ (-1000)` and origin and query coordinates of magnitude at most
`2 ^ 1000`, every query inside the footprint returns a finite value within
`2 ^ (-46) * K + 2 ^ (-1071)` of `a + b*colF + d*rowF`, where
`colF = (x - X[0]) / resolution` and `rowF = (y - Y[0]) / resolution` are the
exact grid coordinates; on each axis the base index plus the weight of the
routine is within `2 ^ (-45)` of the exact grid coordinate. -/
theorem binary64_plane (demData : struct0_T) (a b d x y : ℚ)
    (hres : pow2 (-1000) ≤ demData.resolution)
    (hX : |demData.X 0| ≤ pow2 1000) (hY : |demData.Y 0| ≤ pow2 1000)
    (hx : |x| ≤ pow2 1000) (hy : |y| ≤ pow2 1000)
    (hK : |a| + 100 * |b| + 100 * |d| ≤ pow2 1000)
    (hplane : ∀ r c : ℕ, r ≤ 100 → c ≤ 100 →
      elevations demData r c = a + b * (c : ℚ) + d * (r : ℚ))
    (hx₀ : demData.X 0 ≤ x) (hx₁ : x ≤ demData.X 0 + 100 * demData.resolution)
    (hy₀ : demData.Y 0 ≤ y) (hy₁ : y ≤ demData.Y 0 + 100 * demData.resolution) :
    ∃ v wx wy, demInterpolate demData x y = .ok (fin v) ∧
      |v - (a + b * ((x - demData.X 0) / demData.resolution)
          + d * ((y - demData.Y 0) / demData.resolution))|
        ≤ pow2 (-46) * (|a| + 100 * |b| + 100 * |d|) + pow2 (-1071) ∧
      weight (colF demData x) = fin wx ∧ weight (rowF demData y) = fin wy ∧
      |(baseIndex (colF demData x) : ℚ) + wx - (x - demData.X 0) / demData.resolution|
        ≤ pow2 (-45) ∧
      |(baseIndex (rowF demData y) : ℚ) + wy - (y - demData.Y 0) / demData.resolution|
        ≤ pow2 (-45) := by
  have hres₀ : 0 < demData.resolution := lt_of_lt_of_le (pow2_pos _) hres
  obtain ⟨wx, ewx, wx₀, wx₁, bx⟩ := axis_inside64 x (demData.X 0) _ hres hx hX hx₀ hx₁
  obtain ⟨wy, ewy, wy₀, wy₁, hby⟩ := axis_inside64 y (demData.Y 0) _ hres hy hY hy₀ hy₁
  have hn := baseIndex_le64 (colF demData x)
  have hm := baseIndex_le64 (rowF demData y)
  have hcorner : ∀ r c : ℕ, r ≤ 100 → c ≤ 100 →
      |elevations demData r c| ≤ |a| + 100 * |b| + 100 * |d| := by
    intro r c hr hc
    rw [hplane r c hr hc]
    have hc' : (c : ℚ) ≤ 100 := by exact_mod_cast hc
    have hr' : (r : ℚ) ≤ 100 := by exact_mod_cast hr
    have hcabs : |(c : ℚ)| = (c : ℚ) := abs_of_nonneg (Nat.cast_nonneg c)
    have hrabs : |(r : ℚ)| = (r : ℚ) := abs_of_nonneg (Nat.cast_nonneg r)
    have h1 : |b * (c : ℚ)| ≤ 100 * |b| := by
      rw [abs_mul, hcabs, mul_comm]
      exact mul_le_mul_of_nonneg_right hc' (abs_nonneg b)
    have h2 : |d * (r : ℚ)| ≤ 100 * |d| := by
      rw [abs_mul, hrabs, mul_comm]
      exact mul_le_mul_of_nonneg_right hr' (abs_nonneg d)
    have t1 := abs_add (a + b * (c : ℚ)) (d * (r : ℚ))
    have t2 := abs_add a (b * (c : ℚ))
    linarith
  obtain ⟨v, ev, bv⟩ := blend_tolerance _ _ _ _ wx wy _ hK
    (hcorner _ _ (Nat.le_succ_of_le hm) (Nat.le_succ_of_le hn))
    (hcorner _ _ (Nat.le_succ_of_le hm) (Nat.succ_le_succ hn))
    (hcorner _ _ (Nat.succ_le_succ hm) (Nat.le_succ_of_le hn))
    (hcorner _ _ (Nat.succ_le_succ hm) (Nat.succ_le_succ hn)) wx₀ wx₁ wy₀ wy₁
  refine ⟨v, wx, wy, ?_, ?_, ewx, ewy, ?_, ?_⟩
  · rw [demInterpolate_eq64 _ _ _ hres₀,
      elevationAt_of64 demData x y _ _ (fin wx) (fin wy) rfl rfl ewx ewy, ev]
  · rw [hplane _ _ (Nat.le_succ_of_le hm) (Nat.le_succ_of_le hn),
      hplane _ _ (Nat.le_succ_of_le hm) (Nat.succ_le_succ hn),
      hplane _ _ (Nat.succ_le_succ hm) (Nat.le_succ_of_le hn),
      hplane _ _ (Nat.succ_le_succ hm) (Nat.succ_le_succ hn)] at bv
    have hexact : DemInterpolate.blend
        (a + b * ((baseIndex (colF demData x) : ℕ) : ℚ)
          + d * ((baseIndex (rowF demData y) : ℕ) : ℚ))
        (a + b * ((baseIndex (colF demData x) + 1 : ℕ) : ℚ)
          + d * ((baseIndex (rowF demData y) : ℕ) : ℚ))
        (a + b * ((baseIndex (colF demData x) : ℕ) : ℚ)
          + d * ((baseIndex (rowF demData y) + 1 : ℕ) : ℚ))
        (a + b * ((baseIndex (colF demData x) + 1 : ℕ) : ℚ)
          + d * ((baseIndex (rowF demData y) + 1 : ℕ) : ℚ)) wx wy
        = a + b * ((baseIndex (colF demData x) : ℚ) + wx)
          + d * ((baseIndex (rowF demData y) : ℚ) + wy) := by
      unfold DemInterpolate.blend
      push_cast
      ring
    rw [hexact] at bv
    have h45 : pow2 (-45) = 4 * pow2 (-47) := by
      have := pow2_add 2 (-47)
      rw [show (2 : ℤ) + -47 = -45 from rfl] at this
      rw [this, pow2_eq 2]
      norm_num
    have h46 : pow2 (-46) = 2 * pow2 (-47) := by
      have := pow2_add 1 (-47)
      rw [show (1 : ℤ) + -47 = -46 from rfl] at this
      rw [this, pow2_eq 1]
      norm_num
    have hp := pow2_pos (-47)
    rw [h45] at bx hby
    rw [h46]
    generalize pow2 (-47) = u at *
    have hb1 : |b * ((baseIndex (colF demData x) : ℚ) + wx
        - (x - demData.X 0) / demData.resolution)| ≤ |b| * (4 * u) := by
      rw [abs_mul]
      exact mul_le_mul_of_nonneg_left bx (abs_nonneg b)
    have hd1 : |d * ((baseIndex (rowF demData y) : ℚ) + wy
        - (y - demData.Y 0) / demData.resolution)| ≤ |d| * (4 * u) := by
      rw [abs_mul]
      exact mul_le_mul_of_nonneg_left hby (abs_nonneg d)
    have hsplit : v - (a + b * ((x - demData.X 0) / demData.resolution)
          + d * ((y - demData.Y 0) / demData.resolution))
        = (v - (a + b * ((baseIndex (colF demData x) : ℚ) + wx)
            + d * ((baseIndex (rowF demData y) : ℚ) + wy)))
          + (b * ((baseIndex (colF demData x) : ℚ) + wx
              - (x - demData.X 0) / demData.resolution)
            + d * ((baseIndex (rowF demData y) : ℚ) + wy
              - (y - demData.Y 0) / demData.resolution)) := by
      ring
    rw [hsplit]
    have t1 := abs_add (v - (a + b * ((baseIndex (colF demData x) : ℚ) + wx)
        + d * ((baseIndex (rowF demData y) : ℚ) + wy)))
      (b * ((baseIndex (colF demData x) : ℚ) + wx - (x - demData.X 0) / demData.resolution)
        + d * ((baseIndex (rowF demData y) : ℚ) + wy
          - (y - demData.Y 0) / demData.resolution))
    have t2 := abs_add
      (b * ((baseIndex (colF demData x) : ℚ) + wx - (x - demData.X 0) / demData.resolution))
      (d * ((baseIndex (rowF demData y) : ℚ) + wy - (y - demData.Y 0) / demData.resolution))
    have ha := abs_nonneg a
    have hb := abs_nonneg b
    have hd := abs_nonneg d
    have e1 : |b| * (4 * u) + |d| * (4 * u) ≤ u * (|a| + 100 * |b| + 100 * |d|) := by
      have h1 : 0 ≤ u * |a| := mul_nonneg (le_of_lt hp) ha
      have h2 : 0 ≤ u * |b| := mul_nonneg (le_of_lt hp) hb
      have h3 : 0 ≤ u * |d| := mul_nonneg (le_of_lt hp) hd
      nlinarith
    linarith
  · exact bx
  · exact hby

theorem binary64_plane_witness :
    pow2 (-1000) ≤ rampGrid.resolution ∧
      (∀ r c : ℕ, r ≤ 100 → c ≤ 100 →
        elevations rampGrid r c = 0 + 101 * (c : ℚ) + 1 * (r : ℚ)) ∧
      rampGrid.X 0 ≤ 500123 ∧ 500123 ≤ rampGrid.X 0 + 100 * rampGrid.resolution ∧
      rampGrid.Y 0 ≤ 5400456 ∧ 5400456 ≤ rampGrid.Y 0 + 100 * rampGrid.resolution ∧
      ∃ v, demInterpolate rampGrid 500123 5400456 = .ok (fin v) ∧
        |v - (0 + 101 * ((500123 - rampGrid.X 0) / rampGrid.resolution)
            + 1 * ((5400456 - rampGrid.Y 0) / rampGrid.resolution))|
          ≤ pow2 (-46) * (|(0 : ℚ)| + 100 * |(101 : ℚ)| + 100 * |(1 : ℚ)|) + pow2 (-1071) := by
  have hres : pow2 (-1000) ≤ rampGrid.resolution :=
    le_trans one_ge_pow2_neg (by show (1 : ℚ) ≤ 10; norm_num)
  have hplane := rampBuffer_affine rampGrid (fun _ => rfl)
  have hx₀ : rampGrid.X 0 ≤ 500123 := by show (500000 : ℚ) ≤ 500123; norm_num
  have hx₁ : (500123 : ℚ) ≤ rampGrid.X 0 + 100 * rampGrid.resolution := by
    show (500123 : ℚ) ≤ 500000 + 100 * 10
    norm_num
  have hy₀ : rampGrid.Y 0 ≤ 5400456 := by show (5400000 : ℚ) ≤ 5400456; norm_num
  have hy₁ : (5400456 : ℚ) ≤ rampGrid.Y 0 + 100 * rampGrid.resolution := by
    show (5400456 : ℚ) ≤ 5400000 + 100 * 10
    norm_num
  have hX : |rampGrid.X 0| ≤ pow2 1000 := by
    have e : rampGrid.X 0 = 500000 := rfl
    rw [e]
    exact small_le_pow2 500000 (by rw [abs_of_nonneg] <;> norm_num)
  have hY : |rampGrid.Y 0| ≤ pow2 1000 := by
    have e : rampGrid.Y 0 = 5400000 := rfl
    rw [e]
    exact small_le_pow2 5400000 (by rw [abs_of_nonneg] <;> norm_num)
  have hx : |(500123 : ℚ)| ≤ pow2 1000 :=
    small_le_pow2 500123 (by rw [abs_of_nonneg] <;> norm_num)
  have hy : |(5400456 : ℚ)| ≤ pow2 1000 :=
    small_le_pow2 5400456 (by rw [abs_of_nonneg] <;> norm_num)
  have hK : |(0 : ℚ)| + 100 * |(101 : ℚ)| + 100 * |(1 : ℚ)| ≤ pow2 1000 := by
    have h := small_le_pow2 10200 (by rw [abs_of_nonneg] <;> norm_num)
    rw [abs_of_nonneg (by norm_num : (0 : ℚ) ≤ 10200)] at h
    rw [abs_zero, abs_of_nonneg (by norm_num : (0 : ℚ) ≤ 101), abs_one]
    linarith
  obtain ⟨v, _, _, ev, bv, _⟩ := binary64_plane rampGrid 0 101 1 500123 5400456 hres
    hX hY hx hy hK hplane hx₀ hx₁ hy₀ hy₁
  exact ⟨hres, hplane, hx₀, hx₁, hy₀, hy₁, v, ev, bv⟩

/-- Claim C12 as stated fails: the grid `skewGridA` is the plane
`elevations[r, c] = 0 + 101*c + 1*r`; the binary64 query
`(X[0] + 96*resolution, Y[0])` lies inside the footprint, and
`a + b*colF + d*rowF = 9696` there, but the routine returns
`5330432371458047 / 549755813888`. -/
theorem plane_counterexample :
    (0 : ℚ) < skewGridA.resolution ∧
      (∀ r c : ℕ, r ≤ 100 → c ≤ 100 →
        elevations skewGridA r c = 0 + 101 * (c : ℚ) + 1 * (r : ℚ)) ∧
      isBinary64 skewGridA.resolution ∧
      isBinary64 (skewGridA.X 0 + 96 * skewGridA.resolution) ∧
      skewGridA.X 0 ≤ skewGridA.X 0 + 96 * skewGridA.resolution ∧
      skewGridA.X 0 + 96 * skewGridA.resolution ≤ skewGridA.X 0 + 100 * skewGridA.resolution ∧
      skewGridA.Y 0 ≤ skewGridA.Y 0 ∧
      skewGridA.Y 0 ≤ skewGridA.Y 0 + 100 * skewGridA.resolution ∧
      0 + 101 * DemInterpolate.colF skewGridA (skewGridA.X 0 + 96 * skewGridA.resolution)
        + 1 * DemInterpolate.rowF skewGridA (skewGridA.Y 0) = 9696 ∧
      demInterpolate skewGridA (skewGridA.X 0 + 96 * skewGridA.resolution) (skewGridA.Y 0)
        = .ok (fin (5330432371458047 / 549755813888)) ∧
      demInterpolate skewGridA (skewGridA.X 0 + 96 * skewGridA.resolution) (skewGridA.Y 0)
        ≠ .ok (fin (0 + 101
            * DemInterpolate.colF skewGridA (skewGridA.X 0 + 96 * skewGridA.resolution)
          + 1 * DemInterpolate.rowF skewGridA (skewGridA.Y 0))) := by
  refine ⟨by decide!, rampBuffer_affine skewGridA (fun _ => rfl), by unfold isBinary64; decide!,
    by unfold isBinary64; decide!, by decide!, by decide!, le_rfl, by decide!, by decide!,
    by decide!, by decide!⟩

end Binary64

end DemInterpolate
